import Mathlib

/-!
# Verification of the `httpfromtcp` HTTP/1.1 implementation

A shallow embedding, in Lean 4, of the core of the `httpfromtcp` Go
repository: the header collection (`internal/headers/headers.go`), the
incremental request parser (`internal/request/request.go`) and the response
writer (`internal/response/response.go`, the variant with chunked encoding
and trailers).

Byte strings (`[]byte` and `string` in Go) are modelled as `List Nat`, one
`Nat` per byte.  The repository only ever manipulates ASCII data, so the Go
routines that are Unicode-aware (`unicode.IsUpper` after `utf8.DecodeRune`,
`strings.ToLower`, `bytes.TrimSpace`) are modelled on the ASCII range,
which is the entire range exercised by the HTTP/1.1 wire grammar the
repository implements.

Loops whose termination is not structural (the parser drive loop, the read
loop of `RequestFromReader`, hexadecimal digit production) are modelled
with an explicit fuel parameter; the wrappers supply a fuel value that the
lemmas below prove sufficient, and exhaustion is reported through the
dedicated `outOfFuel` error that the lemmas show is never returned.
-/

/-- Byte strings: Go `[]byte` / `string` values, one `Nat` per byte. -/
abbrev ByteStr := List Nat

/-- ASCII byte string literal helper (every character used is ASCII). -/
def bytesOf (s : String) : ByteStr := s.data.map Char.toNat

/-- Model of Go `unicode.IsSpace` restricted to the ASCII range
(space, tab, newline, vertical tab, form feed, carriage return). -/
def isSpaceByte (b : Nat) : Bool :=
  b = 32 || b = 9 || b = 10 || b = 11 || b = 12 || b = 13

/-- Model of `bytes.TrimSpace` / `strings.TrimSpace` on ASCII data:
drop whitespace bytes from both ends. -/
def trimSpace (s : ByteStr) : ByteStr :=
  ((s.dropWhile isSpaceByte).reverse.dropWhile isSpaceByte).reverse

/-- Model of `strings.ToLower` on one ASCII byte. -/
def toLowerByte (b : Nat) : Nat :=
  if 65 ≤ b ∧ b ≤ 90 then b + 32 else b

/-- Model of `strings.ToLower` on ASCII data. -/
def toLowerStr (s : ByteStr) : ByteStr := s.map toLowerByte

/-- Model of `bytes.Split(s, sep)` / `strings.Split(s, sep)` for a
single-byte separator: split at every occurrence, keeping empty fields
(`Split("", sep) = [""]`). -/
def splitOnByte (sep : Nat) : ByteStr → List ByteStr
  | [] => [[]]
  | b :: rest =>
    if b = sep then [] :: splitOnByte sep rest
    else
      match splitOnByte sep rest with
      | t :: ts => (b :: t) :: ts
      | [] => [[b]]

/-- Model of `bytes.SplitN(s, sep, 2)` for a single-byte separator: split at
the first occurrence.  `none` models the length-1 result (no separator). -/
def splitFirst (sep : Nat) : ByteStr → Option (ByteStr × ByteStr)
  | [] => none
  | b :: rest =>
    if b = sep then some ([], rest)
    else (splitFirst sep rest).map (fun p => (b :: p.1, p.2))

/-- Model of `bytes.Index(data, []byte("\r\n"))`: index of the first
occurrence of CRLF, `none` for Go's `-1`. -/
def indexCRLF : ByteStr → Option Nat
  | [] => none
  | b :: rest =>
    if b = 13 ∧ rest.head? = some 10 then some 0
    else (indexCRLF rest).map (· + 1)

/-- Decimal digit run for `strconv.Atoi`: all bytes must be digits and
there must be at least one. -/
def parseDigits : ByteStr → Option Nat
  | [] => none
  | ds => ds.foldl (fun acc b =>
      acc.bind (fun a => if 48 ≤ b ∧ b ≤ 57 then some (10 * a + (b - 48)) else none))
      (some 0)

/-- Model of Go `strconv.Atoi`: optional sign then one or more decimal
digits.  The model uses unbounded `Int`, so the 64-bit overflow failure of
the Go original is not modelled; no claim depends on lengths near `2^63`. -/
def Atoi (s : ByteStr) : Option Int :=
  match s with
  | 43 :: rest => (parseDigits rest).map Int.ofNat
  | 45 :: rest => (parseDigits rest).map (fun n => -(Int.ofNat n))
  | _ => (parseDigits s).map Int.ofNat

/-- Equality of `Except` results is decidable, so the model can be
evaluated at concrete inputs. -/
instance exceptDecidableEq {ε α : Type} [DecidableEq ε] [DecidableEq α] :
    DecidableEq (Except ε α) := fun x y =>
  match x, y with
  | .error a, .error b =>
    if h : a = b then isTrue (by rw [h]) else isFalse (by intro hc; cases hc; exact h rfl)
  | .error _, .ok _ => isFalse (by intro hc; cases hc)
  | .ok _, .error _ => isFalse (by intro hc; cases hc)
  | .ok a, .ok b =>
    if h : a = b then isTrue (by rw [h]) else isFalse (by intro hc; cases hc; exact h rfl)

/-!
## `internal/headers/headers.go`

`type Headers map[string]string` is modelled as an association list with
unique keys; insertion order stands in for Go's (unspecified) map
iteration order.  Lookups take the first matching key.
-/

/-- `type Headers map[string]string`, as an association list. -/
abbrev Headers := List (ByteStr × ByteStr)

/-- `NewHeaders()`. -/
def NewHeaders : Headers := []

/-- Raw map read `h[k]` (no case folding), `none` for a missing key. -/
def Headers.lookup? (h : Headers) (k : ByteStr) : Option ByteStr :=
  (h.find? (fun p => p.1 = k)).map (·.2)

/-- Raw map write `h[k] = v`: overwrite in place, insert at the end when
absent. -/
def Headers.setKey (h : Headers) (k v : ByteStr) : Headers :=
  if h.any (fun p => p.1 = k) then
    h.map (fun p => if p.1 = k then (k, v) else p)
  else h ++ [(k, v)]

/-- `func (h Headers) Get(name string) string`: case-insensitive lookup,
empty string when absent. -/
def Headers.Get (h : Headers) (name : ByteStr) : ByteStr :=
  (h.lookup? (toLowerStr name)).getD []

/-- `func (h Headers) Set(field_name, field_value string)`. -/
def Headers.Set (h : Headers) (name v : ByteStr) : Headers :=
  h.setKey (toLowerStr name) v

/-- `func (h Headers) Add(field_name, field_value string)`: merge on
duplicate with `", "`, insert fresh otherwise. -/
def Headers.Add (h : Headers) (name v : ByteStr) : Headers :=
  let key := toLowerStr name
  match h.lookup? key with
  | some val => h.setKey key (val ++ bytesOf ", " ++ v)
  | none => h.setKey key v

/-- `func (h Headers) Delete(field_name string)`. -/
def Headers.Delete (h : Headers) (name : ByteStr) : Headers :=
  h.filter (fun p => ¬ p.1 = toLowerStr name)

/-- Errors of the parser components.  The spec's error taxonomy is used for
the names: `invalidContentLength` covers both the `strconv.Atoi` failure
and the explicit negative-value check of `request.go`; `outOfFuel` is the
model-only fuel-exhaustion marker (proved unreachable for the fuel bounds
the wrappers supply). -/
inductive Err
  | malformedRequestLine
  | invalidHeaderLine
  | invalidContentLength
  | readAfterDone
  | outOfFuel
deriving DecidableEq, Repr

/-- `func (h Headers) Parse(data []byte) (int, bool, error)`: consume one
header line.  Result on success: new collection, bytes consumed, and the
header-section-done flag. -/
def Headers.Parse (h : Headers) (data : ByteStr) : Except Err (Headers × Nat × Bool) :=
  match indexCRLF data with
  | none => .ok (h, 0, false)
  | some idx =>
    let header := data.take idx
    if header = [] then .ok (h, 2, true)
    else
      match splitFirst 58 header with
      | none => .error .invalidHeaderLine
      | some (nm, rest) =>
        if nm.any (fun b => b = 32 || b = 9) then .error .invalidHeaderLine
        else .ok (h.Add (toLowerStr nm) (trimSpace rest), idx + 2, false)

/-!
## `internal/request/request.go`
-/

/-- `type ParserState int` with its four states. -/
inductive ParserState
  | StateInit
  | StateHeaders
  | StateBody
  | StateDone
deriving DecidableEq, Repr

/-- `type RequestLine struct`. -/
structure RequestLine where
  HttpVersion : ByteStr
  RequestTarget : ByteStr
  Method : ByteStr
deriving DecidableEq, Repr

/-- `type Request struct`. -/
structure Request where
  RequestLine : RequestLine
  State : ParserState
  Headers : Headers
  Body : ByteStr
deriving DecidableEq, Repr

/-- `func newRequest() *Request`: zero-valued request line and body, fresh
header collection, `StateInit`. -/
def newRequest : Request :=
  { RequestLine := ⟨[], [], []⟩, State := .StateInit, Headers := NewHeaders, Body := [] }

/-- `func isAllUpper(str []byte) bool`: non-empty and every byte an
upper-case letter.  The Go original decodes UTF-8 runes and asks
`unicode.IsUpper`; on the ASCII data of the HTTP wire grammar that is
exactly membership in `'A'..'Z'`. -/
def isAllUpper (str : ByteStr) : Bool :=
  ¬ str.isEmpty && str.all (fun b => 65 ≤ b && b ≤ 90)

/-- `func ParseRequestLine(data []byte) (*RequestLine, int, error)`.
`ok (none, 0)` models the `(nil, 0, nil)` "need more data" result. -/
def ParseRequestLine (data : ByteStr) : Except Err (Option RequestLine × Nat) :=
  match indexCRLF data with
  | none => .ok (none, 0)
  | some idx =>
    match splitOnByte 32 (trimSpace (data.take idx)) with
    | [m, t, v] =>
      if ¬ isAllUpper m then .error .malformedRequestLine
      else if ¬ v = bytesOf "HTTP/1.1" then .error .malformedRequestLine
      else .ok (some ⟨bytesOf "1.1", t, m⟩, idx + 2)
    | _ => .error .malformedRequestLine

/-- `func (r *Request) parseSingle(data []byte) (int, error)`: one step of
the state machine.  The Go method mutates `r` in place and returns the
consumed count; the model returns the updated request together with it. -/
def Request.parseSingle (r : Request) (data : ByteStr) : Except Err (Request × Nat) :=
  match r.State with
  | .StateInit =>
    match ParseRequestLine data with
    | .error e => .error e
    | .ok (none, _) => .ok (r, 0)
    | .ok (some rq, read) =>
      .ok ({ r with State := .StateHeaders, RequestLine := rq }, read)
  | .StateHeaders =>
    match r.Headers.Parse data with
    | .error e => .error e
    | .ok (h, n, done) =>
      .ok ({ r with Headers := h, State := if done then .StateBody else r.State }, n)
  | .StateBody =>
    let l := r.Headers.Get (bytesOf "content-length")
    if l = [] then .ok ({ r with State := .StateDone }, 0)
    else
      match Atoi l with
      | none => .error .invalidContentLength
      | some length =>
        if length < 0 then .error .invalidContentLength
        else
          let remaining := min (length.toNat - r.Body.length) data.length
          let body := r.Body ++ data.take remaining
          let st := if body.length = length.toNat then ParserState.StateDone else r.State
          .ok ({ r with Body := body, State := st }, remaining)
  | .StateDone => .error .readAfterDone

/-- Fueled form of the drive loop of `func (r *Request) parse(data []byte)`:
step against the unconsumed tail until `StateDone`, a zero-byte step, or an
error. -/
def parseAux : Nat → Request → ByteStr → Except Err (Request × Nat)
  | 0, _, _ => .error .outOfFuel
  | fuel + 1, r, data =>
    if r.State = .StateDone then .ok (r, 0)
    else
      match r.parseSingle data with
      | .error e => .error e
      | .ok (r₂, n) =>
        if n = 0 then .ok (r₂, 0)
        else
          match parseAux fuel r₂ (data.drop n) with
          | .error e => .error e
          | .ok (r₃, m) => .ok (r₃, n + m)

/-- `func (r *Request) parse(data []byte) (int, error)`.  Each productive
step consumes at least one byte, so `data.length + 1` rounds of fuel always
suffice (`parse_ne_outOfFuel` below). -/
def Request.parse (r : Request) (data : ByteStr) : Except Err (Request × Nat) :=
  parseAux (data.length + 1) r data

/-- Total number of bytes held by a chunk list. -/
def sumLen (cs : List ByteStr) : Nat := (cs.map List.length).sum

/-- Fueled form of the read loop of `func RequestFromReader`.  The reader
is modelled as the list of chunks it will deliver: each `Read` into the
free tail of the buffer copies `min(free, len(chunk))` bytes of the front
chunk, and an exhausted chunk list is end-of-stream (`(0, io.EOF)`).
`cap` is `len(buf)` and `content` the buffered bytes `buf[:readToIndex]`;
doubling-in-place and compaction follow the source. -/
def readerLoop : Nat → Request → Nat → ByteStr → List ByteStr → Except Err Request
  | 0, _, _, _, _ => .error .outOfFuel
  | fuel + 1, r, cap, content, chunks =>
    if r.State = .StateDone then .ok r
    else
      let cap' := if cap ≤ content.length then cap * 2 else cap
      match chunks with
      | [] => .ok { r with State := .StateDone }
      | c :: rest =>
        let n := min (cap' - content.length) c.length
        let content₁ := content ++ c.take n
        let chunks' := if n = c.length then rest else c.drop n :: rest
        match Request.parse r content₁ with
        | .error e => .error e
        | .ok (r₂, read) => readerLoop fuel r₂ cap' (content₁.drop read) chunks'

/-- `func RequestFromReader(reader io.Reader) (*Request, error)` for a
reader delivering the given chunks; buffer starts at 8 bytes.  Every loop
round either consumes reader bytes or pops a chunk or is the final
end-of-stream round, so the supplied fuel suffices
(`readerLoop_spec` / `RequestFromReader_spec` below). -/
def RequestFromReader (chunks : List ByteStr) : Except Err Request :=
  readerLoop (sumLen chunks + chunks.length + 1) newRequest 8 [] chunks

/-!
## `internal/response/response.go` (the variant with chunked encoding and
trailers)
-/

/-- `type WriterState int` with its four states. -/
inductive WriterState
  | StateInit
  | StateStatusLine
  | StateHeaders
  | StateBody
deriving DecidableEq, Repr

/-- Handler-facing errors of the response writer, named after the spec's
error taxonomy (`fmt.Errorf` strings in the source). -/
inductive WErr
  | headersAfterBody
  | bodyBeforeHeaders
  | unannouncedTrailer (name : ByteStr)
  | trailersNotInitialized
deriving DecidableEq, Repr

/-- Decimal rendering of a `Nat` (digit production for `fmt`'s `%d`),
fueled: one digit per fuel unit, so `n` units suffice for `n ≥ 1`. -/
def natToDecAux : Nat → Nat → ByteStr → ByteStr
  | 0, _, acc => acc
  | fuel + 1, n, acc =>
    if n = 0 then acc else natToDecAux fuel (n / 10) ((48 + n % 10) :: acc)

/-- `fmt.Sprintf("%d", n)` for a non-negative value. -/
def natToDec (n : Nat) : ByteStr :=
  if n = 0 then [48] else natToDecAux n n []

/-- `fmt.Sprintf("%d", i)` for a Go `int`. -/
def intToDec (i : Int) : ByteStr :=
  if i < 0 then 45 :: natToDec i.natAbs else natToDec i.toNat

/-- Upper-case hexadecimal digit byte for a value below 16. -/
def hexDigit (m : Nat) : Nat := if m < 10 then 48 + m else 55 + m

/-- Upper-case hexadecimal digit production for `fmt`'s `%X`, fueled: one
digit per fuel unit, so `n` units suffice. -/
def toHexAux : Nat → Nat → ByteStr → ByteStr
  | 0, _, acc => acc
  | fuel + 1, n, acc =>
    if n = 0 then acc else toHexAux fuel (n / 16) (hexDigit (n % 16) :: acc)

/-- `fmt.Sprintf("%X", n)`: upper-case hexadecimal, minimal digits,
`"0"` for zero. -/
def toHex (n : Nat) : ByteStr :=
  if n = 0 then [48] else toHexAux (n + 1) n []

/-- `var codeNames map[StatusCode]string` composed with
`func (c StatusCode) String() string` (default `"Unknown code"`). -/
def codeString (c : Int) : ByteStr :=
  if c = 200 then bytesOf "OK"
  else if c = 400 then bytesOf "Bad Request"
  else if c = 500 then bytesOf "Internal Server Error"
  else bytesOf "Unknown code"

/-- `func GetDefaultHeaders(contentLen int) headers.Headers`. -/
def GetDefaultHeaders (contentLen : Int) : Headers :=
  ((NewHeaders.Set (bytesOf "content-length") (intToDec contentLen)).Set
      (bytesOf "connection") (bytesOf "close")).Set
    (bytesOf "content-type") (bytesOf "text/plain")

/-- `type Writer struct` of the response package: wire buffer, body
accumulator, emission state, held header and trailer collections. -/
structure response.Writer where
  buf : ByteStr
  body : ByteStr
  state : WriterState
  headers : Headers
  trailers : Headers
deriving DecidableEq, Repr

/-- `func NewWriter() *Writer`. -/
def NewWriter : response.Writer :=
  { buf := [], body := [], state := .StateInit,
    headers := GetDefaultHeaders 0, trailers := NewHeaders }

/-- `func (w *Writer) WriteStatusLine(statusCode StatusCode) error`:
unconditionally sets the state to `StateStatusLine` and appends
`"HTTP/1.1 <code> <reason>\r\n"` to the wire buffer.  The Go return value
is the `fmt.Fprintf` error, always nil on a `bytes.Buffer`. -/
def response.Writer.WriteStatusLine (w : response.Writer) (statusCode : Int) : response.Writer :=
  { w with state := .StateStatusLine,
           buf := w.buf ++ bytesOf "HTTP/1.1 " ++ intToDec statusCode ++
                  [32] ++ codeString statusCode ++ [13, 10] }

/-- `func (w *Writer) DeleteHeader(fieldName string)`. -/
def response.Writer.DeleteHeader (w : response.Writer) (fieldName : ByteStr) : response.Writer :=
  { w with headers := w.headers.Delete fieldName }

/-- `func (w *Writer) WriteHeaders(headers headers.Headers) error`: fails
once body writing has begun, otherwise replaces the held collection and
moves to `StateHeaders`.  On error the writer is unchanged. -/
def response.Writer.WriteHeaders (w : response.Writer) (h : Headers) : response.Writer × Option WErr :=
  if w.state = .StateBody then (w, some .headersAfterBody)
  else ({ w with state := .StateHeaders, headers := h }, none)

/-- `func (w *Writer) WriteBody(p []byte) error`: legal only from
`StateHeaders` or `StateBody`; appends to the body accumulator.  On error
the writer is unchanged. -/
def response.Writer.WriteBody (w : response.Writer) (p : ByteStr) : response.Writer × Option WErr :=
  if ¬ w.state = .StateHeaders ∧ ¬ w.state = .StateBody then
    (w, some .bodyBeforeHeaders)
  else ({ w with state := .StateBody, body := w.body ++ p }, none)

/-- `func (w *Writer) WriteChunkedBody(p []byte) (int, error)`: appends
`"%X\r\n"`, the payload, and `"\r\n"` to the body accumulator, returning
the byte count written (the error is always nil on a `bytes.Buffer`). -/
def response.Writer.WriteChunkedBody (w : response.Writer) (p : ByteStr) : response.Writer × Nat :=
  let sizeLine := toHex p.length ++ [13, 10]
  ({ w with body := w.body ++ sizeLine ++ p ++ [13, 10] },
   sizeLine.length + p.length + 2)

/-- `func (w *Writer) WriteChunkedBodyDone() (int, error)`: appends the
terminating `"0\r\n"` marker to the body accumulator. -/
def response.Writer.WriteChunkedBodyDone (w : response.Writer) : response.Writer × Nat :=
  ({ w with body := w.body ++ [48, 13, 10] }, 3)

/-- The `for k, v := range h` loop of `WriteTrailers`: check each given
field against the announced names, `Set`-ing accepted ones into the
trailer collection.  Go mutates `w` in place, so fields handled before a
failure stay merged; the pair result keeps that behaviour. -/
def trailersLoop (announced : List ByteStr) : response.Writer → List (ByteStr × ByteStr) → response.Writer × Option WErr
  | w, [] => (w, none)
  | w, (k, v) :: rest =>
    if announced.contains k then
      trailersLoop announced { w with trailers := w.trailers.Set k v } rest
    else (w, some (.unannouncedTrailer k))

/-- `func (w *Writer) WriteTrailers(h headers.Headers) error`: requires a
`trailer` header; splits its value on commas, trims and lower-cases each
part to form the announced set; merges the given fields, failing on the
first one whose name is not announced. -/
def response.Writer.WriteTrailers (w : response.Writer) (h : Headers) : response.Writer × Option WErr :=
  match w.headers.lookup? (bytesOf "trailer") with
  | some val =>
    let announced := (splitOnByte 44 val).map (fun p => toLowerStr (trimSpace p))
    trailersLoop announced w h
  | none => (w, some .trailersNotInitialized)

/-!
## Operation alphabets for the state-machine claims

`WOp` ranges over the six `ResponseWriter` operations named by the spec's
ordering contract; `HOp` over the four `HeaderCollection` operations.
Applying an op keeps the updated value and discards the reported error
(Go mutates the receiver in place and returns the error separately).
-/

/-- One call against a `Writer`. -/
inductive WOp
  | statusLine (code : Int)
  | headersOp (h : Headers)
  | bodyOp (p : ByteStr)
  | chunked (p : ByteStr)
  | chunkedDone
  | trailersOp (h : Headers)
deriving DecidableEq, Repr

/-- The writer state after one call. -/
def applyWOp (w : response.Writer) : WOp → response.Writer
  | .statusLine code => w.WriteStatusLine code
  | .headersOp h => (w.WriteHeaders h).1
  | .bodyOp p => (w.WriteBody p).1
  | .chunked p => (w.WriteChunkedBody p).1
  | .chunkedDone => w.WriteChunkedBodyDone.1
  | .trailersOp h => (w.WriteTrailers h).1

/-- The writer state after a sequence of calls. -/
def applyWOps (w : response.Writer) (ops : List WOp) : response.Writer :=
  ops.foldl applyWOp w

/-- Position of a writer state along `Init → StatusLine → Headers → Body`. -/
def stateRank : WriterState → Nat
  | .StateInit => 0
  | .StateStatusLine => 1
  | .StateHeaders => 2
  | .StateBody => 3

/-- One call against a `Headers` collection. -/
inductive HOp
  | setOp (name v : ByteStr)
  | addOp (name v : ByteStr)
  | deleteOp (name : ByteStr)
  | parseOp (data : ByteStr)
deriving DecidableEq, Repr

/-- The collection after one call (a failing `Parse` leaves it unchanged,
as in the source, where the merge is the last action of `Parse`). -/
def applyHOp (h : Headers) : HOp → Headers
  | .setOp name v => h.Set name v
  | .addOp name v => h.Add name v
  | .deleteOp name => h.Delete name
  | .parseOp data =>
    match h.Parse data with
    | .ok (h', _, _) => h'
    | .error _ => h

/-- The collection after a sequence of calls. -/
def applyHOps (h : Headers) (ops : List HOp) : Headers :=
  ops.foldl applyHOp h

/-!
## A standards-compliant chunked-transfer decoder

Modelled from the spec: "Chunked response body: sequence of
`<hex-length>\r\n<payload>\r\n` chunks terminated by a zero-length marker
chunk" and "decoded by any standards-compliant chunk decoder" — the
RFC 9112 §7.1 chunked-body grammar (without chunk extensions), reading
chunks up to the zero-size last chunk and concatenating their data.  This
decoder is the spec-side yardstick for claim C4; it is not part of the
repository, which only encodes.
-/

/-- Hexadecimal digit predicate (RFC HEXDIG, both letter cases). -/
def isHexDigit (b : Nat) : Bool :=
  (48 ≤ b && b ≤ 57) || (65 ≤ b && b ≤ 70) || (97 ≤ b && b ≤ 102)

/-- Value of one hexadecimal digit byte. -/
def hexVal (b : Nat) : Nat :=
  if b ≤ 57 then b - 48 else if b ≤ 70 then b - 55 else b - 87

/-- Read one `chunk-size CRLF` production: one or more hex digits followed
by CRLF; result is the size and the remaining input. -/
def readChunkSize (s : ByteStr) : Option (Nat × ByteStr) :=
  let digits := s.takeWhile isHexDigit
  match digits, s.dropWhile isHexDigit with
  | [], _ => none
  | _ :: _, 13 :: 10 :: r => some (digits.foldl (fun a b => 16 * a + hexVal b) 0, r)
  | _ :: _, _ => none

/-- Fueled chunked-body decode: read `chunk-size CRLF chunk-data CRLF`
until a zero-size chunk, concatenating the data.  Each round consumes at
least three bytes, so `s.length + 1` rounds of fuel suffice. -/
def decodeChunkedAux : Nat → ByteStr → Option ByteStr
  | 0, _ => none
  | fuel + 1, s =>
    match readChunkSize s with
    | none => none
    | some (0, _) => some []
    | some (sz + 1, rest) =>
      if (rest.take (sz + 1)).length = sz + 1 then
        if (rest.drop (sz + 1)).take 2 = [13, 10] then
          (decodeChunkedAux fuel ((rest.drop (sz + 1)).drop 2)).map
            (fun tail => rest.take (sz + 1) ++ tail)
        else none
      else none

/-- Chunked-body decode with sufficient fuel. -/
def decodeChunked (s : ByteStr) : Option ByteStr :=
  decodeChunkedAux (s.length + 1) s

/-- Shift the consumed-byte count of a parser-loop result (used to state
how `parse` resumes across chunk boundaries). -/
def shiftConsumed (n : Nat) : Except Err (Request × Nat) → Except Err (Request × Nat)
  | .error e => .error e
  | .ok (r, m) => .ok (r, n + m)

/-- The end-of-stream action of `RequestFromReader`:
`rq.State = StateDone` regardless of completion. -/
def forceDone (r : Request) : Request := { r with State := .StateDone }

/-- The writer produced by encoding each payload with `WriteChunkedBody`
and terminating with `WriteChunkedBodyDone`, starting from `NewWriter`. -/
def chunkWriter (Ps : List ByteStr) : response.Writer :=
  (Ps.foldl (fun w p => (w.WriteChunkedBody p).1) NewWriter).WriteChunkedBodyDone.1

/-- One encoded chunk as `WriteChunkedBody` appends it. -/
def encodeChunk (P : ByteStr) : ByteStr :=
  toHex P.length ++ [13, 10] ++ P ++ [13, 10]

/-!
## Basic lemmas: CRLF search, prefix stability
-/

lemma indexCRLF_bound : ∀ (s : ByteStr) (i : Nat), indexCRLF s = some i → i + 2 ≤ s.length := by
  intro s
  induction s with
  | nil => intro i h; simp [indexCRLF] at h
  | cons b rest ih =>
    intro i h
    simp only [indexCRLF] at h
    split at h
    · rename_i hc
      obtain ⟨hb, hh⟩ := hc
      cases rest with
      | nil => simp at hh
      | cons c cs =>
        injection h with h'
        subst h'
        simp [List.length_cons]
    · rw [Option.map_eq_some'] at h
      obtain ⟨j, hj, hji⟩ := h
      have := ih j hj
      subst hji
      simp [List.length_cons]
      omega

lemma indexCRLF_append (s t : ByteStr) (i : Nat) (h : indexCRLF s = some i) :
    indexCRLF (s ++ t) = some i := by
  induction s generalizing i with
  | nil => simp [indexCRLF] at h
  | cons b rest ih =>
    simp only [indexCRLF, List.cons_append] at h ⊢
    by_cases hc : b = 13 ∧ rest.head? = some 10
    · obtain ⟨hb, hh⟩ := hc
      cases rest with
      | nil => simp at hh
      | cons c cs =>
        simp only [List.head?_cons, Option.some.injEq] at hh
        simp [hb, hh] at h ⊢
        exact h
    · rw [if_neg hc] at h
      rw [Option.map_eq_some'] at h
      obtain ⟨j, hj, hji⟩ := h
      have hrest : rest ≠ [] := by
        intro he; subst he; simp [indexCRLF] at hj
      have hcond : ¬ (b = 13 ∧ (rest ++ t).head? = some 10) := by
        intro ⟨hb, hh⟩
        apply hc
        refine ⟨hb, ?_⟩
        cases rest with
        | nil => exact absurd rfl hrest
        | cons c cs => simpa using hh
      split
      · rename_i hcc; exact absurd hcc hcond
      · show Option.map (fun x => x + 1) (indexCRLF (rest ++ t)) = some i
        rw [ih j hj, Option.map_some']
        exact congrArg some hji

lemma ParseRequestLine_none (d : ByteStr) (h : indexCRLF d = none) :
    ParseRequestLine d = .ok (none, 0) := by
  unfold ParseRequestLine; rw [h]

lemma ParseRequestLine_found (d : ByteStr) (idx : Nat) (h : indexCRLF d = some idx) :
    ParseRequestLine d = .error .malformedRequestLine ∨
    ∃ rl, ParseRequestLine d = .ok (some rl, idx + 2) := by
  unfold ParseRequestLine
  rw [h]
  dsimp only
  split
  · split
    · left; rfl
    · split
      · left; rfl
      · right; exact ⟨_, rfl⟩
  · left; rfl

lemma ParseRequestLine_append (d e : ByteStr) (idx : Nat) (h : indexCRLF d = some idx) :
    ParseRequestLine (d ++ e) = ParseRequestLine d := by
  have hb := indexCRLF_bound d idx h
  unfold ParseRequestLine
  rw [h, indexCRLF_append d e idx h]
  dsimp only
  rw [List.take_append_of_le_length (by omega)]

lemma HeadersParse_none (h : Headers) (d : ByteStr) (hn : indexCRLF d = none) :
    h.Parse d = .ok (h, 0, false) := by
  unfold Headers.Parse; rw [hn]

lemma HeadersParse_found (h : Headers) (d : ByteStr) (idx : Nat) (hi : indexCRLF d = some idx) :
    h.Parse d = .error .invalidHeaderLine ∨
    (idx = 0 ∧ h.Parse d = .ok (h, 2, true)) ∨
    ∃ h', h.Parse d = .ok (h', idx + 2, false) := by
  have hb := indexCRLF_bound d idx hi
  unfold Headers.Parse
  rw [hi]
  dsimp only
  split
  · rename_i he
    right; left
    refine ⟨?_, rfl⟩
    by_contra hne
    have : d.take idx ≠ [] := by
      have : idx ≤ d.length := by omega
      intro hcon
      rw [List.take_eq_nil_iff] at hcon
      rcases hcon with h0 | h0
      · exact hne h0
      · subst h0; simp at hb
    exact this he
  · split
    · left; rfl
    · split
      · left; rfl
      · right; right; exact ⟨_, rfl⟩

lemma HeadersParse_append (h : Headers) (d e : ByteStr) (idx : Nat)
    (hi : indexCRLF d = some idx) : h.Parse (d ++ e) = h.Parse d := by
  have hb := indexCRLF_bound d idx hi
  unfold Headers.Parse
  rw [hi, indexCRLF_append d e idx hi]
  dsimp only
  rw [List.take_append_of_le_length (by omega)]

lemma parseSingle_le (r : Request) (d : ByteStr) (r' : Request) (n : Nat)
    (h : r.parseSingle d = .ok (r', n)) : n ≤ d.length := by
  cases hs : r.State with
  | StateInit =>
    simp only [Request.parseSingle, hs] at h
    cases hidx : indexCRLF d with
    | none =>
      rw [ParseRequestLine_none d hidx] at h
      simp at h
      omega
    | some idx =>
      rcases ParseRequestLine_found d idx hidx with herr | ⟨rl, hok⟩
      · rw [herr] at h; simp at h
      · rw [hok] at h
        have hb := indexCRLF_bound d idx hidx
        simp at h
        omega
  | StateHeaders =>
    simp only [Request.parseSingle, hs] at h
    cases hidx : indexCRLF d with
    | none =>
      rw [HeadersParse_none r.Headers d hidx] at h
      simp at h
      omega
    | some idx =>
      have hb := indexCRLF_bound d idx hidx
      rcases HeadersParse_found r.Headers d idx hidx with herr | ⟨h0, hok⟩ | ⟨h', hok⟩
      · rw [herr] at h; simp at h
      · rw [hok] at h; simp at h; omega
      · rw [hok] at h; simp at h; omega
  | StateBody =>
    simp only [Request.parseSingle, hs] at h
    by_cases hl : r.Headers.Get (bytesOf "content-length") = []
    · simp [hl] at h
      omega
    · simp only [hl, if_neg, ite_false] at h
      cases hA : Atoi (r.Headers.Get (bytesOf "content-length")) with
      | none => rw [hA] at h; simp at h
      | some L =>
        rw [hA] at h
        dsimp only at h
        by_cases hneg : L < 0
        · rw [if_pos hneg] at h; simp at h
        · rw [if_neg hneg] at h
          simp only [Except.ok.injEq, Prod.mk.injEq] at h
          have : n = min (L.toNat - r.Body.length) d.length := h.2.symm
          omega
  | StateDone =>
    simp only [Request.parseSingle, hs] at h
    simp at h

lemma parseSingle_err_ext (r : Request) (d : ByteStr) (er : Err)
    (h : r.parseSingle d = .error er) (e : ByteStr) :
    r.parseSingle (d ++ e) = .error er := by
  cases hs : r.State with
  | StateInit =>
    simp only [Request.parseSingle, hs] at h ⊢
    cases hidx : indexCRLF d with
    | none => rw [ParseRequestLine_none d hidx] at h; simp at h
    | some idx => rw [ParseRequestLine_append d e idx hidx]; exact h
  | StateHeaders =>
    simp only [Request.parseSingle, hs] at h ⊢
    cases hidx : indexCRLF d with
    | none => rw [HeadersParse_none r.Headers d hidx] at h; simp at h
    | some idx => rw [HeadersParse_append r.Headers d e idx hidx]; exact h
  | StateBody =>
    simp only [Request.parseSingle, hs] at h ⊢
    by_cases hl : r.Headers.Get (bytesOf "content-length") = []
    · simp [hl] at h
    · simp only [hl, if_neg, ite_false] at h ⊢
      cases hA : Atoi (r.Headers.Get (bytesOf "content-length")) with
      | none => rw [hA] at h; exact h
      | some L =>
        rw [hA] at h
        dsimp only at h
        by_cases hneg : L < 0
        · rw [if_pos hneg] at h
          dsimp only
          rw [if_pos hneg]
          exact h
        · rw [if_neg hneg] at h; simp at h
  | StateDone =>
    simp only [Request.parseSingle, hs] at h ⊢
    exact h

lemma parseSingle_pos_ext (r : Request) (d : ByteStr) (r' : Request) (n : Nat)
    (h : r.parseSingle d = .ok (r', n)) (hn : 0 < n)
    (hstate : r.State = .StateInit ∨ r.State = .StateHeaders) (e : ByteStr) :
    r.parseSingle (d ++ e) = .ok (r', n) := by
  rcases hstate with hs | hs
  · simp only [Request.parseSingle, hs] at h ⊢
    cases hidx : indexCRLF d with
    | none =>
      rw [ParseRequestLine_none d hidx] at h
      simp at h
      omega
    | some idx => rw [ParseRequestLine_append d e idx hidx]; exact h
  · simp only [Request.parseSingle, hs] at h ⊢
    cases hidx : indexCRLF d with
    | none =>
      rw [HeadersParse_none r.Headers d hidx] at h
      simp at h
      omega
    | some idx => rw [HeadersParse_append r.Headers d e idx hidx]; exact h

lemma parseSingle_zero (r : Request) (d : ByteStr) (r' : Request)
    (h : r.parseSingle d = .ok (r', 0)) :
    r' = r ∨ (r'.State = .StateDone ∧ ∀ e, r.parseSingle (d ++ e) = .ok (r', 0)) := by
  obtain ⟨rl₀, st₀, hd₀, bd₀⟩ := r
  cases st₀ with
  | StateInit =>
    simp only [Request.parseSingle] at h
    cases hidx : indexCRLF d with
    | none =>
      rw [ParseRequestLine_none d hidx] at h
      simp only [Except.ok.injEq, Prod.mk.injEq] at h
      left; exact h.1.symm
    | some idx =>
      rcases ParseRequestLine_found d idx hidx with herr | ⟨rl, hok⟩
      · rw [herr] at h; simp at h
      · rw [hok] at h
        simp only [Except.ok.injEq, Prod.mk.injEq] at h
        exact absurd h.2 (by omega)
  | StateHeaders =>
    simp only [Request.parseSingle] at h
    cases hidx : indexCRLF d with
    | none =>
      rw [HeadersParse_none _ d hidx] at h
      simp only [Except.ok.injEq, Prod.mk.injEq, if_neg, Bool.false_eq_true, ite_false] at h
      left; exact h.1.symm
    | some idx =>
      rcases HeadersParse_found _ d idx hidx with herr | ⟨h0, hok⟩ | ⟨h', hok⟩
      · rw [herr] at h; simp at h
      · rw [hok] at h
        simp only [Except.ok.injEq, Prod.mk.injEq] at h
        exact absurd h.2 (by omega)
      · rw [hok] at h
        simp only [Except.ok.injEq, Prod.mk.injEq] at h
        exact absurd h.2 (by omega)
  | StateBody =>
    simp only [Request.parseSingle] at h
    by_cases hl : Headers.Get hd₀ (bytesOf "content-length") = []
    · simp only [hl, ite_true, if_pos, Except.ok.injEq, Prod.mk.injEq] at h
      right
      refine ⟨?_, fun e => ?_⟩
      · rw [← h.1]
      · simp only [Request.parseSingle]
        simp only [hl, ite_true, if_pos, Except.ok.injEq, Prod.mk.injEq]
        exact ⟨h.1, trivial⟩
    · simp only [hl, if_neg, ite_false] at h
      cases hA : Atoi (Headers.Get hd₀ (bytesOf "content-length")) with
      | none => rw [hA] at h; simp at h
      | some L =>
        rw [hA] at h
        dsimp only at h
        by_cases hneg : L < 0
        · rw [if_pos hneg] at h; simp at h
        · rw [if_neg hneg] at h
          simp only [Except.ok.injEq, Prod.mk.injEq] at h
          have hrem : min (L.toNat - bd₀.length) d.length = 0 := h.2
          by_cases hfull : bd₀.length = L.toNat
          · right
            have hz : L.toNat - bd₀.length = 0 := by omega
            have hbody : bd₀ ++ List.take (min (L.toNat - bd₀.length) d.length) d = bd₀ := by
              rw [hrem]; simp
            refine ⟨?_, fun e => ?_⟩
            · rw [← h.1]
              simp [hbody, hfull]
            · simp only [Request.parseSingle]
              simp only [hl, if_neg, ite_false]
              rw [hA]
              dsimp only
              rw [if_neg hneg]
              have hrem' : min (L.toNat - bd₀.length) (d ++ e).length = 0 := by
                rw [hz]; simp
              rw [hrem']
              simp only [List.take_zero, List.append_nil, Except.ok.injEq, Prod.mk.injEq]
              refine ⟨?_, trivial⟩
              rw [← h.1]
              simp [hbody, hfull]
          · left
            rw [← h.1]
            have hbody : bd₀ ++ List.take (min (L.toNat - bd₀.length) d.length) d = bd₀ := by
              rw [hrem]; simp
            simp [hbody, hfull]
  | StateDone =>
    simp only [Request.parseSingle] at h
    simp at h

lemma shiftConsumed_zero (x : Except Err (Request × Nat)) : shiftConsumed 0 x = x := by
  cases x with
  | error e => rfl
  | ok p => obtain ⟨r, m⟩ := p; simp [shiftConsumed]

lemma shiftConsumed_comp (a b : Nat) (x : Except Err (Request × Nat)) :
    shiftConsumed a (shiftConsumed b x) = shiftConsumed (a + b) x := by
  cases x with
  | error e => rfl
  | ok p => obtain ⟨r, m⟩ := p; simp [shiftConsumed]; omega

lemma parseAux_fuel (fuel₁ : Nat) : ∀ (fuel₂ : Nat) (r : Request) (d : ByteStr),
    d.length < fuel₁ → d.length < fuel₂ → parseAux fuel₁ r d = parseAux fuel₂ r d := by
  induction fuel₁ with
  | zero => intro fuel₂ r d h1 h2; omega
  | succ f ih =>
    intro fuel₂ r d h1 h2
    cases fuel₂ with
    | zero => omega
    | succ f₂ =>
      simp only [parseAux]
      by_cases hdone : r.State = .StateDone
      · simp [hdone]
      · rw [if_neg hdone, if_neg hdone]
        cases hps : r.parseSingle d with
        | error e => rfl
        | ok p =>
          obtain ⟨r₂, n⟩ := p
          dsimp only
          by_cases hn : n = 0
          · rw [if_pos hn, if_pos hn]
          · rw [if_neg hn, if_neg hn]
            have hle := parseSingle_le r d r₂ n hps
            have hd1 : (d.drop n).length < f := by
              rw [List.length_drop]; omega
            have hd2 : (d.drop n).length < f₂ := by
              rw [List.length_drop]; omega
            rw [ih f₂ r₂ (d.drop n) hd1 hd2]

lemma parse_done (r : Request) (d : ByteStr) (h : r.State = .StateDone) :
    Request.parse r d = .ok (r, 0) := by
  unfold Request.parse
  simp only [parseAux]
  rw [if_pos h]

lemma parse_step (r : Request) (D : ByteStr) (r₂ : Request) (m : Nat)
    (hdone : ¬ r.State = .StateDone) (hps : r.parseSingle D = .ok (r₂, m)) (hm : ¬ m = 0) :
    Request.parse r D = shiftConsumed m (Request.parse r₂ (D.drop m)) := by
  unfold Request.parse
  conv_lhs => rw [parseAux]
  rw [if_neg hdone, hps]
  dsimp only
  rw [if_neg hm]
  have hle := parseSingle_le r D r₂ m hps
  have h1 : (D.drop m).length < D.length := by
    rw [List.length_drop]; omega
  rw [parseAux_fuel D.length ((D.drop m).length + 1) r₂ (D.drop m) h1 (by omega)]
  cases parseAux ((D.drop m).length + 1) r₂ (D.drop m) with
  | error e => rfl
  | ok q => obtain ⟨a, b⟩ := q; rfl

lemma parse_step0 (r : Request) (D : ByteStr) (r₂ : Request)
    (hdone : ¬ r.State = .StateDone) (hps : r.parseSingle D = .ok (r₂, 0)) :
    Request.parse r D = .ok (r₂, 0) := by
  unfold Request.parse
  simp only [parseAux]
  rw [if_neg hdone, hps]
  dsimp only
  rw [if_pos rfl]

lemma parse_step_err (r : Request) (D : ByteStr) (er : Err)
    (hdone : ¬ r.State = .StateDone) (hps : r.parseSingle D = .error er) :
    Request.parse r D = .error er := by
  unfold Request.parse
  simp only [parseAux]
  rw [if_neg hdone, hps]

lemma parseAux_stall (fuel : Nat) : ∀ (r : Request) (d : ByteStr) (r' : Request) (n : Nat),
    d.length < fuel → parseAux fuel r d = .ok (r', n) →
    Request.parse r' (d.drop n) = .ok (r', 0) := by
  induction fuel with
  | zero => intro r d r' n h; omega
  | succ f ih =>
    intro r d r' n hlen h
    simp only [parseAux] at h
    by_cases hdone : r.State = .StateDone
    · rw [if_pos hdone] at h
      obtain ⟨h1, h2⟩ : r = r' ∧ 0 = n := by simpa using h
      subst h1
      subst h2
      exact parse_done r d hdone
    · rw [if_neg hdone] at h
      cases hps : r.parseSingle d with
      | error e => rw [hps] at h; simp at h
      | ok p =>
        obtain ⟨r₂, m⟩ := p
        rw [hps] at h
        dsimp only at h
        by_cases hm : m = 0
        · rw [if_pos hm] at h
          obtain ⟨h1, h2⟩ : r₂ = r' ∧ 0 = n := by simpa using h
          subst h1
          subst h2
          subst hm
          rcases parseSingle_zero r d r₂ hps with heq | ⟨hdst, _⟩
          · rw [heq]
            rw [heq] at hps
            simp only [List.drop_zero]
            exact parse_step0 r d r hdone hps
          · simp only [List.drop_zero]
            exact parse_done r₂ d hdst
        · rw [if_neg hm] at h
          cases hrec : parseAux f r₂ (d.drop m) with
          | error e => rw [hrec] at h; simp at h
          | ok q =>
            obtain ⟨r₃, k⟩ := q
            rw [hrec] at h
            dsimp only at h
            obtain ⟨h1, h2⟩ : r₃ = r' ∧ m + k = n := by simpa using h
            subst h1
            subst h2
            have hle := parseSingle_le r d r₂ m hps
            have hlen' : (d.drop m).length < f := by
              rw [List.length_drop]; omega
            have := ih r₂ (d.drop m) r₃ k hlen' hrec
            rwa [List.drop_drop] at this

lemma parse_stall (r : Request) (d : ByteStr) (r' : Request) (n : Nat)
    (h : Request.parse r d = .ok (r', n)) : Request.parse r' (d.drop n) = .ok (r', 0) := by
  exact parseAux_stall (d.length + 1) r d r' n (by omega) h

lemma parseSingle_body (r : Request) (d : ByteStr) (L : Int)
    (hs : r.State = .StateBody)
    (hl : ¬ r.Headers.Get (bytesOf "content-length") = [])
    (hA : Atoi (r.Headers.Get (bytesOf "content-length")) = some L)
    (hneg : ¬ L < 0) :
    r.parseSingle d = .ok ({ r with
        Body := r.Body ++ d.take (min (L.toNat - r.Body.length) d.length),
        State := if r.Body.length + min (L.toNat - r.Body.length) d.length = L.toNat
                 then .StateDone else r.State },
      min (L.toNat - r.Body.length) d.length) := by
  simp only [Request.parseSingle, hs]
  simp only [hl, if_neg, ite_false]
  rw [hA]
  dsimp only
  rw [if_neg hneg]
  have hto : (r.Body ++ d.take (min (L.toNat - r.Body.length) d.length)).length
      = r.Body.length + min (L.toNat - r.Body.length) d.length := by
    simp [List.length_take]
  rw [hto]

lemma parse_body_append (r : Request) (L : Int) (d e : ByteStr)
    (hs : r.State = .StateBody)
    (hl : ¬ r.Headers.Get (bytesOf "content-length") = [])
    (hA : Atoi (r.Headers.Get (bytesOf "content-length")) = some L)
    (hneg : ¬ L < 0)
    (hlt : d.length < L.toNat - r.Body.length) (he : ¬ e = []) :
    Request.parse r (d ++ e) =
      shiftConsumed d.length
        (Request.parse { r with Body := r.Body ++ d, State := .StateBody } e) := by
  have hep : 0 < e.length := List.length_pos.mpr he
  have hdone : ¬ r.State = .StateDone := by rw [hs]; simp
  have hext := parseSingle_body r (d ++ e) L hs hl hA hneg
  have hM : min (L.toNat - r.Body.length) (d ++ e).length
      = d.length + min (L.toNat - (r.Body.length + d.length)) e.length := by
    rw [List.length_append]; omega
  have hMpos : ¬ min (L.toNat - r.Body.length) (d ++ e).length = 0 := by
    rw [List.length_append]; omega
  rw [parse_step r (d ++ e) _ _ hdone hext hMpos]
  have hps2 := parseSingle_body { r with Body := r.Body ++ d, State := .StateBody } e L
    rfl hl hA hneg
  have hc2pos : ¬ min (L.toNat
      - (Request.Body { r with Body := r.Body ++ d, State := ParserState.StateBody }).length)
      e.length = 0 := by
    dsimp only
    rw [List.length_append]
    omega
  rw [parse_step _ e _ _ (by simp) hps2 hc2pos, shiftConsumed_comp]
  dsimp only
  congr 1
  · simp only [List.length_append]
    omega
  · congr 1
    · simp only [Request.mk.injEq, true_and, and_true]
      constructor
      · rw [hs]
        refine if_congr ?_ rfl rfl
        simp only [List.length_append]
        omega
      · rw [hM, List.take_append, ← List.append_assoc]
        simp only [List.length_append]
    · rw [hM, List.drop_append]
      simp only [List.length_append]

lemma parseAux_resume (fuel : Nat) : ∀ (r : Request) (d : ByteStr) (r' : Request) (n : Nat) (e : ByteStr),
    d.length < fuel → parseAux fuel r d = .ok (r', n) →
    Request.parse r (d ++ e) = shiftConsumed n (Request.parse r' (d.drop n ++ e)) := by
  induction fuel with
  | zero => intro r d r' n e hlen h; omega
  | succ f ih =>
    intro r d r' n e hlen h
    by_cases he : e = []
    · subst he
      simp only [List.append_nil]
      have hok : Request.parse r d = .ok (r', n) := by
        unfold Request.parse
        rw [parseAux_fuel (d.length + 1) (f + 1) r d (by omega) hlen]
        exact h
      rw [hok, parse_stall r d r' n hok]
      simp [shiftConsumed]
    · simp only [parseAux] at h
      by_cases hdone : r.State = .StateDone
      · rw [if_pos hdone] at h
        obtain ⟨h1, h2⟩ : r = r' ∧ 0 = n := by simpa using h
        subst h1
        subst h2
        rw [parse_done r (d ++ e) hdone, shiftConsumed_zero, List.drop_zero,
          parse_done r (d ++ e) hdone]
      · rw [if_neg hdone] at h
        cases hps : r.parseSingle d with
        | error er => rw [hps] at h; simp at h
        | ok p =>
          obtain ⟨r₂, m⟩ := p
          rw [hps] at h
          dsimp only at h
          by_cases hm : m = 0
          · rw [if_pos hm] at h
            obtain ⟨h1, h2⟩ : r₂ = r' ∧ 0 = n := by simpa using h
            subst h1
            subst h2
            subst hm
            simp only [List.drop_zero, shiftConsumed_zero]
            rcases parseSingle_zero r d r₂ hps with heq | ⟨hdst, hext⟩
            · rw [heq]
            · rw [parse_done r₂ (d ++ e) hdst]
              exact parse_step0 r (d ++ e) r₂ hdone (hext e)
          · rw [if_neg hm] at h
            cases hrec : parseAux f r₂ (d.drop m) with
            | error er => rw [hrec] at h; simp at h
            | ok q =>
              obtain ⟨r₃, k⟩ := q
              rw [hrec] at h
              dsimp only at h
              obtain ⟨h1, h2⟩ : r₃ = r' ∧ m + k = n := by simpa using h
              subst h1
              subst h2
              have hle := parseSingle_le r d r₂ m hps
              have hlen' : (d.drop m).length < f := by
                rw [List.length_drop]; omega
              have hdropapp : (d ++ e).drop m = d.drop m ++ e :=
                List.drop_append_of_le_length hle
              have hgen : r.parseSingle (d ++ e) = .ok (r₂, m) →
                  Request.parse r (d ++ e) =
                    shiftConsumed (m + k) (Request.parse r₃ (d.drop (m + k) ++ e)) := by
                intro hext
                rw [parse_step r (d ++ e) r₂ m hdone hext hm, hdropapp,
                  ih r₂ (d.drop m) r₃ k e hlen' hrec, shiftConsumed_comp, List.drop_drop]
              cases hst : r.State with
              | StateDone => exact absurd hst hdone
              | StateInit =>
                exact hgen (parseSingle_pos_ext r d r₂ m hps (Nat.pos_of_ne_zero hm) (Or.inl hst) e)
              | StateHeaders =>
                exact hgen (parseSingle_pos_ext r d r₂ m hps (Nat.pos_of_ne_zero hm) (Or.inr hst) e)
              | StateBody =>
                by_cases hl : r.Headers.Get (bytesOf "content-length") = []
                · exfalso
                  have hz : r.parseSingle d = .ok ({ r with State := .StateDone }, 0) := by
                    simp only [Request.parseSingle, hst]
                    simp [hl]
                  have := hz.symm.trans hps
                  simp only [Except.ok.injEq, Prod.mk.injEq] at this
                  exact hm this.2.symm
                · cases hA : Atoi (r.Headers.Get (bytesOf "content-length")) with
                  | none =>
                    exfalso
                    have hz : r.parseSingle d = .error .invalidContentLength := by
                      simp only [Request.parseSingle, hst]
                      simp only [hl, if_neg, ite_false]
                      rw [hA]
                    rw [hz] at hps
                    simp at hps
                  | some L =>
                    by_cases hneg : L < 0
                    · exfalso
                      have hz : r.parseSingle d = .error .invalidContentLength := by
                        simp only [Request.parseSingle, hst]
                        simp only [hl, if_neg, ite_false]
                        rw [hA]
                        dsimp only
                        rw [if_pos hneg]
                      rw [hz] at hps
                      simp at hps
                    · have hstep := parseSingle_body r d L hst hl hA hneg
                      have hinj := hstep.symm.trans hps
                      simp only [Except.ok.injEq, Prod.mk.injEq] at hinj
                      obtain ⟨hr₂, hm'⟩ := hinj
                      by_cases hcomp : L.toNat - r.Body.length ≤ d.length
                      · -- complete take: the extended step consumes the same bytes
                        apply hgen
                        have hext := parseSingle_body r (d ++ e) L hst hl hA hneg
                        have hmin : min (L.toNat - r.Body.length) (d ++ e).length
                            = min (L.toNat - r.Body.length) d.length := by
                          rw [List.length_append]
                          omega
                        rw [hmin] at hext
                        rw [List.take_append_of_le_length (min_le_right _ _)] at hext
                        rw [hext, ← hr₂, ← hm']
                      · -- partial take: the step on `d` consumed all of `d`
                        have hdpos : 0 < d.length := by
                          by_contra hdz
                          apply hm
                          rw [← hm']
                          omega
                        have hepos : 0 < e.length := List.length_pos.mpr he
                        have hmd : min (L.toNat - r.Body.length) d.length = d.length := by
                          omega
                        have hmval : m = d.length := by omega
                        -- identify r₂ concretely: all of d appended, still StateBody
                        have hcondF : ¬ (r.Body.length + min (L.toNat - r.Body.length) d.length
                            = L.toNat) := by
                          omega
                        have hr₂' : r₂ = { r with Body := r.Body ++ d, State := .StateBody } := by
                          rw [← hr₂, hmd]
                          simp only [List.take_length]
                          rw [if_neg (by omega), hst]
                        -- the tail recursion consumed nothing: r₃ = r₂, k = 0
                        have hstall : parseAux f r₂ (d.drop m) = .ok (r₂, 0) := by
                          cases f with
                          | zero => omega
                          | succ f' =>
                            simp only [parseAux]
                            rw [if_neg (by rw [hr₂']; simp)]
                            have hps₂ := parseSingle_body r₂ (d.drop m) L
                              (by rw [hr₂']) (by rw [hr₂']; simpa using hl)
                              (by rw [hr₂']; simpa using hA) hneg
                            rw [hmval, List.drop_length] at hps₂
                            simp only [List.length_nil, Nat.min_zero, List.take_zero,
                              List.append_nil] at hps₂
                            rw [if_neg (by rw [hr₂']; simp [List.length_append]; omega)] at hps₂
                            rw [hmval, List.drop_length]
                            rw [hps₂]
                            dsimp only
                            rw [if_pos rfl]
                        have hrk : r₂ = r₃ ∧ 0 = k := by
                          have := hstall.symm.trans hrec
                          simpa using this
                        obtain ⟨hrk1, hrk2⟩ := hrk
                        rw [← hrk1, ← hrk2]
                        rw [hmval]
                        simp only [Nat.add_zero, List.drop_length, List.nil_append]
                        rw [hr₂']
                        exact parse_body_append r L d e hst hl hA hneg (by omega) he

lemma parse_resume (r : Request) (d : ByteStr) (r' : Request) (n : Nat) (e : ByteStr)
    (h : Request.parse r d = .ok (r', n)) :
    Request.parse r (d ++ e) = shiftConsumed n (Request.parse r' (d.drop n ++ e)) :=
  parseAux_resume (d.length + 1) r d r' n e (by omega) h

lemma parseAux_resume_err (fuel : Nat) : ∀ (r : Request) (d : ByteStr) (er : Err) (e : ByteStr),
    d.length < fuel → parseAux fuel r d = .error er →
    Request.parse r (d ++ e) = .error er := by
  induction fuel with
  | zero => intro r d er e hlen h; omega
  | succ f ih =>
    intro r d er e hlen h
    by_cases he : e = []
    · subst he
      simp only [List.append_nil]
      unfold Request.parse
      rw [parseAux_fuel (d.length + 1) (f + 1) r d (by omega) hlen]
      exact h
    · simp only [parseAux] at h
      by_cases hdone : r.State = .StateDone
      · rw [if_pos hdone] at h; simp at h
      · rw [if_neg hdone] at h
        cases hps : r.parseSingle d with
        | error er₀ =>
          rw [hps] at h
          have her : er₀ = er := by simpa using h
          subst her
          exact parse_step_err r (d ++ e) er₀ hdone (parseSingle_err_ext r d er₀ hps e)
        | ok p =>
          obtain ⟨r₂, m⟩ := p
          rw [hps] at h
          dsimp only at h
          by_cases hm : m = 0
          · rw [if_pos hm] at h; simp at h
          · rw [if_neg hm] at h
            cases hrec : parseAux f r₂ (d.drop m) with
            | ok q => rw [hrec] at h; obtain ⟨a, b⟩ := q; simp at h
            | error er₂ =>
              rw [hrec] at h
              have her : er₂ = er := by simpa using h
              subst her
              have hle := parseSingle_le r d r₂ m hps
              have hlen' : (d.drop m).length < f := by
                rw [List.length_drop]; omega
              have hdropapp : (d ++ e).drop m = d.drop m ++ e :=
                List.drop_append_of_le_length hle
              have hgen : r.parseSingle (d ++ e) = .ok (r₂, m) →
                  Request.parse r (d ++ e) = .error er₂ := by
                intro hext
                rw [parse_step r (d ++ e) r₂ m hdone hext hm, hdropapp,
                  ih r₂ (d.drop m) er₂ e hlen' hrec]
                rfl
              cases hst : r.State with
              | StateDone => exact absurd hst hdone
              | StateInit =>
                exact hgen (parseSingle_pos_ext r d r₂ m hps (Nat.pos_of_ne_zero hm) (Or.inl hst) e)
              | StateHeaders =>
                exact hgen (parseSingle_pos_ext r d r₂ m hps (Nat.pos_of_ne_zero hm) (Or.inr hst) e)
              | StateBody =>
                by_cases hl : r.Headers.Get (bytesOf "content-length") = []
                · exfalso
                  have hz : r.parseSingle d = .ok ({ r with State := .StateDone }, 0) := by
                    simp only [Request.parseSingle, hst]
                    simp [hl]
                  have := hz.symm.trans hps
                  simp only [Except.ok.injEq, Prod.mk.injEq] at this
                  exact hm this.2.symm
                · cases hA : Atoi (r.Headers.Get (bytesOf "content-length")) with
                  | none =>
                    exfalso
                    have hz : r.parseSingle d = .error .invalidContentLength := by
                      simp only [Request.parseSingle, hst]
                      simp only [hl, if_neg, ite_false]
                      rw [hA]
                    rw [hz] at hps
                    simp at hps
                  | some L =>
                    by_cases hneg : L < 0
                    · exfalso
                      have hz : r.parseSingle d = .error .invalidContentLength := by
                        simp only [Request.parseSingle, hst]
                        simp only [hl, if_neg, ite_false]
                        rw [hA]
                        dsimp only
                        rw [if_pos hneg]
                      rw [hz] at hps
                      simp at hps
                    · have hstep := parseSingle_body r d L hst hl hA hneg
                      have hinj := hstep.symm.trans hps
                      simp only [Except.ok.injEq, Prod.mk.injEq] at hinj
                      obtain ⟨hr₂, hm'⟩ := hinj
                      by_cases hcomp : L.toNat - r.Body.length ≤ d.length
                      · apply hgen
                        have hext := parseSingle_body r (d ++ e) L hst hl hA hneg
                        have hmin : min (L.toNat - r.Body.length) (d ++ e).length
                            = min (L.toNat - r.Body.length) d.length := by
                          rw [List.length_append]
                          omega
                        rw [hmin] at hext
                        rw [List.take_append_of_le_length (min_le_right _ _)] at hext
                        rw [hext, ← hr₂, ← hm']
                      · exfalso
                        have hdpos : 0 < d.length := by
                          by_contra hdz
                          apply hm
                          rw [← hm']
                          omega
                        have hmd : min (L.toNat - r.Body.length) d.length = d.length := by
                          omega
                        have hmval : m = d.length := by omega
                        have hr₂' : r₂ = { r with Body := r.Body ++ d, State := .StateBody } := by
                          rw [← hr₂, hmd]
                          simp only [List.take_length]
                          rw [if_neg (by omega), hst]
                        have hstall : parseAux f r₂ (d.drop m) = .ok (r₂, 0) := by
                          cases f with
                          | zero => omega
                          | succ f' =>
                            simp only [parseAux]
                            rw [if_neg (by rw [hr₂']; simp)]
                            have hps₂ := parseSingle_body r₂ (d.drop m) L
                              (by rw [hr₂']) (by rw [hr₂']; simpa using hl)
                              (by rw [hr₂']; simpa using hA) hneg
                            rw [hmval, List.drop_length] at hps₂
                            simp only [List.length_nil, Nat.min_zero, List.take_zero,
                              List.append_nil] at hps₂
                            rw [if_neg (by rw [hr₂']; simp [List.length_append]; omega)] at hps₂
                            rw [hmval, List.drop_length]
                            rw [hps₂]
                            dsimp only
                            rw [if_pos rfl]
                        rw [hstall] at hrec
                        simp at hrec

lemma parse_resume_err (r : Request) (d : ByteStr) (er : Err) (e : ByteStr)
    (h : Request.parse r d = .error er) :
    Request.parse r (d ++ e) = .error er :=
  parseAux_resume_err (d.length + 1) r d er e (by omega) h

lemma forceDone_of_done (r : Request) (h : r.State = .StateDone) : forceDone r = r := by
  obtain ⟨rl, st, hd, bd⟩ := r
  simp only [forceDone]
  simp only at h
  rw [h]

lemma sumLen_cons (c : ByteStr) (rest : List ByteStr) :
    sumLen (c :: rest) = c.length + sumLen rest := by
  simp [sumLen]

lemma readerLoop_spec (fuel : Nat) : ∀ (r : Request) (cap : Nat) (content : ByteStr)
    (chunks : List ByteStr),
    sumLen chunks + chunks.length < fuel →
    content.length ≤ cap → 1 ≤ cap →
    Request.parse r content = .ok (r, 0) →
    readerLoop fuel r cap content chunks =
      match Request.parse r (content ++ chunks.flatten) with
      | .error e => .error e
      | .ok (re, _) => .ok (forceDone re) := by
  induction fuel with
  | zero => intro r cap content chunks hmeas _ _ _; omega
  | succ f ih =>
    intro r cap content chunks hmeas hcap hcappos hstalled
    simp only [readerLoop]
    by_cases hdone : r.State = .StateDone
    · rw [if_pos hdone, parse_done r _ hdone]
      dsimp only
      rw [forceDone_of_done r hdone]
    · rw [if_neg hdone]
      cases chunks with
      | nil =>
        simp only [List.flatten_nil, List.append_nil]
        rw [hstalled]
        rfl
      | cons c rest =>
        dsimp only
        have hcapge : cap ≤ (if cap ≤ content.length then cap * 2 else cap) := by
          split <;> omega
        have hlt : content.length < (if cap ≤ content.length then cap * 2 else cap) := by
          split <;> omega
        set cap' := if cap ≤ content.length then cap * 2 else cap with hcapdef
        set n := min (cap' - content.length) c.length with hndef
        have hnc : n ≤ c.length := min_le_right _ _
        have hnk : n ≤ cap' - content.length := min_le_left _ _
        have htarget : content ++ (c :: rest).flatten =
            (content ++ c.take n) ++ (if n = c.length then rest else c.drop n :: rest).flatten := by
          by_cases hfull : n = c.length
          · rw [if_pos hfull, hfull, List.take_length]
            simp [List.flatten_cons, List.append_assoc]
          · rw [if_neg hfull]
            simp only [List.flatten_cons, List.append_assoc]
            have hjoin : List.take n c ++ (List.drop n c ++ rest.flatten) = c ++ rest.flatten := by
              rw [← List.append_assoc, List.take_append_drop]
            rw [hjoin]
        cases hp : Request.parse r (content ++ c.take n) with
        | error e =>
          rw [htarget, parse_resume_err r (content ++ c.take n) e _ hp]
        | ok q =>
          obtain ⟨r₂, read⟩ := q
          dsimp only
          have hstall₂ := parse_stall r (content ++ c.take n) r₂ read hp
          have hlen₁ : (content ++ c.take n).length = content.length + n := by
            simp [List.length_take]
            omega
          have hcont₂ : ((content ++ c.take n).drop read).length ≤ cap' := by
            rw [List.length_drop, hlen₁]
            omega
          have hmeas' : sumLen (if n = c.length then rest else c.drop n :: rest) +
              (if n = c.length then rest else c.drop n :: rest).length < f := by
            rw [sumLen_cons] at hmeas
            by_cases hfull : n = c.length
            · rw [if_pos hfull]
              simp only [List.length_cons] at hmeas
              omega
            · rw [if_neg hfull]
              rw [sumLen_cons]
              simp only [List.length_cons, List.length_drop] at hmeas ⊢
              have hn1 : 1 ≤ n := by omega
              omega
          rw [ih r₂ cap' ((content ++ c.take n).drop read)
            (if n = c.length then rest else c.drop n :: rest) hmeas' hcont₂
            (le_trans hcappos hcapge) hstall₂]
          rw [htarget, parse_resume r (content ++ c.take n) r₂ read _ hp]
          cases Request.parse r₂ ((content ++ c.take n).drop read ++
              (if n = c.length then rest else c.drop n :: rest).flatten) with
          | error e => rfl
          | ok q₂ => obtain ⟨a, b⟩ := q₂; rfl

lemma parse_newRequest_nil : Request.parse newRequest [] = .ok (newRequest, 0) := by
  unfold Request.parse
  simp only [parseAux]
  rw [if_neg (by simp [newRequest])]
  have hps : newRequest.parseSingle [] = .ok (newRequest, 0) := by
    simp only [Request.parseSingle, newRequest]
    rw [ParseRequestLine_none [] (by simp [indexCRLF])]
  rw [hps]
  dsimp only
  rw [if_pos rfl]

lemma RequestFromReader_spec (chunks : List ByteStr) :
    RequestFromReader chunks =
      match Request.parse newRequest chunks.flatten with
      | .error e => .error e
      | .ok (re, _) => .ok (forceDone re) := by
  unfold RequestFromReader
  rw [readerLoop_spec (sumLen chunks + chunks.length + 1) newRequest 8 [] chunks
    (by omega) (by simp) (by omega) parse_newRequest_nil]
  simp only [List.nil_append]

/-- C1: for every partition of a byte sequence into delivery chunks
(including one byte at a time), `RequestFromReader` produces the same
result — request line, headers, body and state — as when the same bytes
are delivered as one contiguous read.  Proved for every byte sequence, in
particular for every well-formed request. -/
theorem c1_chunking_invariance (cs : List ByteStr) :
    RequestFromReader cs = RequestFromReader [cs.flatten] := by
  rw [RequestFromReader_spec cs, RequestFromReader_spec [cs.flatten]]
  simp only [List.flatten_cons, List.flatten_nil, List.append_nil]

/-- C2: when the delivered stream ends while the parser is still short of
the declared content-length, `RequestFromReader` returns no error and a
request whose body is exactly the delivered (truncated) body bytes, the
state having been forced to `StateDone`. -/
theorem c2_eof_truncated_body (cs : List ByteStr) (head P : ByteStr) (rh : Request) (L : Int)
    (hjoin : cs.flatten = head ++ P)
    (hparse : Request.parse newRequest head = .ok (rh, head.length))
    (hst : rh.State = .StateBody)
    (hA : Atoi (rh.Headers.Get (bytesOf "content-length")) = some L)
    (hneg : ¬ L < 0)
    (hshort : rh.Body.length + P.length < L.toNat) :
    RequestFromReader cs = .ok { rh with Body := rh.Body ++ P, State := .StateDone } := by
  rw [RequestFromReader_spec cs, hjoin]
  have hres := parse_resume newRequest head rh head.length P hparse
  rw [List.drop_length, List.nil_append] at hres
  rw [hres]
  have hl : ¬ rh.Headers.Get (bytesOf "content-length") = [] := by
    intro hc
    rw [hc] at hA
    simp [Atoi, parseDigits] at hA
  have hstep := parseSingle_body rh P L hst hl hA hneg
  have hmin : min (L.toNat - rh.Body.length) P.length = P.length := by omega
  rw [hmin, List.take_length, if_neg (by omega)] at hstep
  have hdone : ¬ rh.State = .StateDone := by rw [hst]; simp
  by_cases hP : P.length = 0
  · have hPnil : P = [] := List.length_eq_zero.mp hP
    subst hPnil
    have hp0 := parse_step0 rh [] _ hdone hstep
    rw [hp0]
    simp [shiftConsumed, forceDone, hst]
  · rw [parse_step rh P _ P.length hdone hstep hP]
    rw [List.drop_length]
    have hst₄ : ({rh with Body := rh.Body ++ P, State := rh.State} : Request).State
        = .StateBody := hst
    have hstep₄ := parseSingle_body { rh with Body := rh.Body ++ P, State := rh.State } [] L
      hst₄ hl hA hneg
    simp only [List.length_nil, Nat.min_zero, List.take_nil, List.append_nil,
      Nat.add_zero] at hstep₄
    rw [if_neg (by simp only [List.length_append]; omega)] at hstep₄
    have hp0 := parse_step0 { rh with Body := rh.Body ++ P, State := rh.State } [] _ hdone hstep₄
    rw [hp0]
    simp [shiftConsumed, forceDone, hst]

/-- Witness for C2 at the spec's example: `POST /submit` with
`Content-Length: 20` and only 15 delivered body bytes parses without error
to a truncated body. -/
theorem c2_eof_truncated_body_witness :
    RequestFromReader
        [bytesOf "POST /submit HTTP/1.1\r\nContent-Length: 20\r\n\r\npartial content"] =
      .ok { RequestLine := ⟨bytesOf "1.1", bytesOf "/submit", bytesOf "POST"⟩,
            State := .StateDone,
            Headers := [(bytesOf "content-length", bytesOf "20")],
            Body := bytesOf "partial content" } := by
  have h := c2_eof_truncated_body
    [bytesOf "POST /submit HTTP/1.1\r\nContent-Length: 20\r\n\r\npartial content"]
    (bytesOf "POST /submit HTTP/1.1\r\nContent-Length: 20\r\n\r\n")
    (bytesOf "partial content")
    { RequestLine := ⟨bytesOf "1.1", bytesOf "/submit", bytesOf "POST"⟩,
      State := .StateBody,
      Headers := [(bytesOf "content-length", bytesOf "20")],
      Body := [] }
    20
    (by decide) (by decide) (by decide) (by decide) (by decide) (by decide)
  simpa using h

lemma isAllUpper_iff (m : ByteStr) :
    isAllUpper m = true ↔ m ≠ [] ∧ ∀ b ∈ m, 65 ≤ b ∧ b ≤ 90 := by
  simp [isAllUpper, List.all_eq_true, List.isEmpty_iff]

/-- C5: with a complete CRLF-terminated line, `ParseRequestLine` trims
surrounding whitespace and splits on single spaces; it succeeds — with
version `"1.1"`, the given target and method, and consumed count equal to
the request-line length plus 2 — exactly when there are three tokens, the
method is non-empty and all upper-case letters, and the version literal is
`"HTTP/1.1"`; otherwise it fails with `MalformedRequestLine`.  With no
CRLF it reports 0 consumed and no error. -/
theorem c5_parse_request_line (data : ByteStr) :
    (indexCRLF data = none → ParseRequestLine data = .ok (none, 0)) ∧
    (∀ idx, indexCRLF data = some idx →
      (∀ m t v, splitOnByte 32 (trimSpace (data.take idx)) = [m, t, v] →
        m ≠ [] → (∀ b ∈ m, 65 ≤ b ∧ b ≤ 90) → v = bytesOf "HTTP/1.1" →
        ParseRequestLine data = .ok (some ⟨bytesOf "1.1", t, m⟩, idx + 2)) ∧
      ((splitOnByte 32 (trimSpace (data.take idx))).length ≠ 3 →
        ParseRequestLine data = .error .malformedRequestLine) ∧
      (∀ m t v, splitOnByte 32 (trimSpace (data.take idx)) = [m, t, v] →
        (m = [] ∨ ∃ b ∈ m, ¬(65 ≤ b ∧ b ≤ 90)) →
        ParseRequestLine data = .error .malformedRequestLine) ∧
      (∀ m t v, splitOnByte 32 (trimSpace (data.take idx)) = [m, t, v] →
        ¬ v = bytesOf "HTTP/1.1" →
        ParseRequestLine data = .error .malformedRequestLine)) := by
  constructor
  · intro hn
    exact ParseRequestLine_none data hn
  · intro idx hidx
    refine ⟨?_, ?_, ?_, ?_⟩
    · intro m t v hsplit hne hup hv
      unfold ParseRequestLine
      rw [hidx]
      dsimp only
      rw [hsplit]
      dsimp only
      have hupper : isAllUpper m = true := (isAllUpper_iff m).mpr ⟨hne, hup⟩
      rw [if_neg (by rw [hupper]; simp), if_neg (by rw [hv]; simp)]
    · intro hlen
      unfold ParseRequestLine
      rw [hidx]
      dsimp only
      cases hsplit : splitOnByte 32 (trimSpace (data.take idx)) with
      | nil => rfl
      | cons a l =>
        cases l with
        | nil => rfl
        | cons b l₂ =>
          cases l₂ with
          | nil => rfl
          | cons cc l₃ =>
            cases l₃ with
            | nil => rw [hsplit] at hlen; simp at hlen
            | cons dd l₄ => rfl
    · intro m t v hsplit hbad
      unfold ParseRequestLine
      rw [hidx]
      dsimp only
      rw [hsplit]
      dsimp only
      have hupper : ¬ isAllUpper m = true := by
        rw [isAllUpper_iff]
        rcases hbad with hbad | ⟨b, hb, hbad⟩
        · intro ⟨h1, _⟩; exact h1 hbad
        · intro ⟨_, h2⟩; exact hbad (h2 b hb)
      rw [if_pos (by rw [Bool.not_eq_true] at hupper; rw [hupper]; simp)]
    · intro m t v hsplit hv
      unfold ParseRequestLine
      rw [hidx]
      dsimp only
      rw [hsplit]
      dsimp only
      by_cases hupper : isAllUpper m = true
      · rw [if_neg (by rw [hupper]; simp), if_pos (by simpa using hv)]
      · rw [if_pos (by rw [Bool.not_eq_true] at hupper; rw [hupper]; simp)]

/-- Witness for C5: the well-formed line `GET / HTTP/1.1\r\n` succeeds,
consuming the line plus CRLF. -/
theorem c5_parse_request_line_witness :
    ParseRequestLine (bytesOf "GET / HTTP/1.1\r\n") =
      .ok (some ⟨bytesOf "1.1", bytesOf "/", bytesOf "GET"⟩, 14 + 2) :=
  ((c5_parse_request_line (bytesOf "GET / HTTP/1.1\r\n")).2 14 (by decide)).1
    (bytesOf "GET") (bytesOf "/") (bytesOf "HTTP/1.1")
    (by decide) (by decide) (by decide) rfl

/-- C6: in `StateBody`, an absent (empty) merged `content-length` sends the
parser to `StateDone` consuming 0 bytes; a non-numeric or negative value
fails with `InvalidContentLength`; otherwise the step consumes exactly
`min(declared - accumulated, available)` bytes — never beyond the declared
length — appends them to the body, and reaches `StateDone` exactly when the
accumulated body length equals the declared length. -/
theorem c6_body_state (r : Request) (data : ByteStr) (hs : r.State = .StateBody) :
    (r.Headers.Get (bytesOf "content-length") = [] →
      r.parseSingle data = .ok ({ r with State := .StateDone }, 0)) ∧
    (Atoi (r.Headers.Get (bytesOf "content-length")) = none →
      r.Headers.Get (bytesOf "content-length") ≠ [] →
      r.parseSingle data = .error .invalidContentLength) ∧
    (∀ L, Atoi (r.Headers.Get (bytesOf "content-length")) = some L → L < 0 →
      r.parseSingle data = .error .invalidContentLength) ∧
    (∀ L, Atoi (r.Headers.Get (bytesOf "content-length")) = some L → 0 ≤ L →
      ∀ r' n, r.parseSingle data = .ok (r', n) →
        n = min (L.toNat - r.Body.length) data.length ∧
        r'.Body = r.Body ++ data.take n ∧
        r'.Headers = r.Headers ∧
        r'.Body.length ≤ max L.toNat r.Body.length ∧
        (r'.State = .StateDone ↔ r'.Body.length = L.toNat)) := by
  refine ⟨?_, ?_, ?_, ?_⟩
  · intro hl
    simp only [Request.parseSingle, hs]
    simp [hl]
  · intro hA hl
    simp only [Request.parseSingle, hs]
    simp only [hl, if_neg, ite_false]
    rw [hA]
  · intro L hA hneg
    simp only [Request.parseSingle, hs]
    have hl : ¬ r.Headers.Get (bytesOf "content-length") = [] := by
      intro hc
      rw [hc] at hA
      simp [Atoi, parseDigits] at hA
    simp only [hl, if_neg, ite_false]
    rw [hA]
    dsimp only
    rw [if_pos hneg]
  · intro L hA hpos r' n h
    have hl : ¬ r.Headers.Get (bytesOf "content-length") = [] := by
      intro hc
      rw [hc] at hA
      simp [Atoi, parseDigits] at hA
    have hneg : ¬ L < 0 := by omega
    have hstep := parseSingle_body r data L hs hl hA hneg
    have hinj := hstep.symm.trans h
    simp only [Except.ok.injEq, Prod.mk.injEq] at hinj
    obtain ⟨hr', hn⟩ := hinj
    subst hn
    refine ⟨rfl, ?_, ?_, ?_, ?_⟩
    · rw [← hr']
    · rw [← hr']
    · rw [← hr']
      simp only [List.length_append, List.length_take]
      omega
    · rw [← hr']
      dsimp only
      have hlen : (r.Body ++ List.take (min (L.toNat - r.Body.length) data.length) data).length
          = r.Body.length + min (L.toNat - r.Body.length) data.length := by
        simp [List.length_take]
      by_cases hc : r.Body.length + min (L.toNat - r.Body.length) data.length = L.toNat
      · rw [if_pos hc]
        simp only [hlen]
        simp [hc]
      · rw [if_neg hc]
        rw [hs]
        simp only [hlen]
        constructor
        · intro hcon; cases hcon
        · intro hcon; exact absurd hcon hc

/-- Witness for C6 at a concrete body step: declared length 5, two bytes
accumulated, three delivered — three consumed, body complete, `StateDone`
reached exactly because the declared length is met. -/
theorem c6_body_state_witness :
    (3 : Nat) = min ((5 : Int).toNat - (⟨⟨[], [], []⟩, .StateBody, [(bytesOf "content-length", bytesOf "5")], bytesOf "ab"⟩ : Request).Body.length) (bytesOf "cde").length ∧
    (⟨⟨[], [], []⟩, .StateDone, [(bytesOf "content-length", bytesOf "5")], bytesOf "abcde"⟩ : Request).Body = (⟨⟨[], [], []⟩, .StateBody, [(bytesOf "content-length", bytesOf "5")], bytesOf "ab"⟩ : Request).Body ++ (bytesOf "cde").take 3 ∧
    (⟨⟨[], [], []⟩, .StateDone, [(bytesOf "content-length", bytesOf "5")], bytesOf "abcde"⟩ : Request).Headers = (⟨⟨[], [], []⟩, .StateBody, [(bytesOf "content-length", bytesOf "5")], bytesOf "ab"⟩ : Request).Headers ∧
    (⟨⟨[], [], []⟩, .StateDone, [(bytesOf "content-length", bytesOf "5")], bytesOf "abcde"⟩ : Request).Body.length ≤ max (5 : Int).toNat (⟨⟨[], [], []⟩, .StateBody, [(bytesOf "content-length", bytesOf "5")], bytesOf "ab"⟩ : Request).Body.length ∧
    ((⟨⟨[], [], []⟩, .StateDone, [(bytesOf "content-length", bytesOf "5")], bytesOf "abcde"⟩ : Request).State = .StateDone ↔
      (⟨⟨[], [], []⟩, .StateDone, [(bytesOf "content-length", bytesOf "5")], bytesOf "abcde"⟩ : Request).Body.length = (5 : Int).toNat) :=
  (c6_body_state
      ⟨⟨[], [], []⟩, .StateBody, [(bytesOf "content-length", bytesOf "5")], bytesOf "ab"⟩
      (bytesOf "cde") (by decide)).2.2.2 5 (by decide) (by decide)
    ⟨⟨[], [], []⟩, .StateDone, [(bytesOf "content-length", bytesOf "5")], bytesOf "abcde"⟩ 3
    (by decide)

/-- C7: `Headers.Parse` on one line: no CRLF yet → `(0, false)` and no
error; empty first line → `(2, true)`; a line with no colon, or whose name
portion before the first colon contains a space or tab (which rejects
folded lines), fails with `InvalidHeaderLine`; otherwise the trimmed value
is merged under the lower-cased name with `(line length + 2, false)`. -/
theorem c7_headers_parse (h : Headers) (data : ByteStr) :
    (indexCRLF data = none → h.Parse data = .ok (h, 0, false)) ∧
    (indexCRLF data = some 0 → h.Parse data = .ok (h, 2, true)) ∧
    (∀ idx, indexCRLF data = some idx → 0 < idx →
      (splitFirst 58 (data.take idx) = none → h.Parse data = .error .invalidHeaderLine) ∧
      (∀ nm rest, splitFirst 58 (data.take idx) = some (nm, rest) →
        ((∃ b ∈ nm, b = 32 ∨ b = 9) → h.Parse data = .error .invalidHeaderLine) ∧
        ((∀ b ∈ nm, ¬ b = 32 ∧ ¬ b = 9) →
          h.Parse data = .ok (h.Add (toLowerStr nm) (trimSpace rest), idx + 2, false)))) := by
  refine ⟨?_, ?_, ?_⟩
  · intro hn
    exact HeadersParse_none h data hn
  · intro h0
    unfold Headers.Parse
    rw [h0]
    dsimp only
    rw [if_pos (by simp)]
  · intro idx hidx hpos
    have hb := indexCRLF_bound data idx hidx
    have hne : ¬ data.take idx = [] := by
      rw [List.take_eq_nil_iff]
      rintro (h0 | h0)
      · omega
      · subst h0; simp at hb
    refine ⟨?_, ?_⟩
    · intro hsf
      unfold Headers.Parse
      rw [hidx]
      dsimp only
      rw [if_neg hne, hsf]
    · intro nm rest hsf
      refine ⟨?_, ?_⟩
      · intro ⟨b, hbm, hbsp⟩
        unfold Headers.Parse
        rw [hidx]
        dsimp only
        rw [if_neg hne, hsf]
        dsimp only
        rw [if_pos]
        rw [List.any_eq_true]
        refine ⟨b, hbm, ?_⟩
        rcases hbsp with hb32 | hb9
        · subst hb32; simp
        · subst hb9; simp
      · intro hclean
        unfold Headers.Parse
        rw [hidx]
        dsimp only
        rw [if_neg hne, hsf]
        dsimp only
        rw [if_neg]
        rw [List.any_eq_true]
        rintro ⟨b, hbm, hbsp⟩
        obtain ⟨h32, h9⟩ := hclean b hbm
        simp only [Bool.or_eq_true, decide_eq_true_eq] at hbsp
        rcases hbsp with hb | hb
        · exact h32 hb
        · exact h9 hb

/-- Witness for C7: the folded line `" Host: x\r\n"` (leading space in the
name portion) is rejected, and `"Accept: text/html\r\n"` merges under the
lower-cased name with consumed = line length + 2. -/
theorem c7_headers_parse_witness :
    Headers.Parse [] (bytesOf " Host: x\r\n") = .error .invalidHeaderLine ∧
    Headers.Parse [] (bytesOf "Accept: text/html\r\n") =
      .ok (Headers.Add [] (toLowerStr (bytesOf "Accept")) (trimSpace (bytesOf " text/html")), 17 + 2, false) := by
  constructor
  · exact (((c7_headers_parse [] (bytesOf " Host: x\r\n")).2.2 8 (by decide) (by decide)).2
      (bytesOf " Host") (bytesOf " x") (by decide)).1 (by decide)
  · exact (((c7_headers_parse [] (bytesOf "Accept: text/html\r\n")).2.2 17 (by decide) (by decide)).2
      (bytesOf "Accept") (bytesOf " text/html") (by decide)).2 (by decide)

lemma indexCRLF_of_clean (v : ByteStr) (hv : ∀ b ∈ v, ¬ b = 13) (rest : ByteStr) :
    indexCRLF (v ++ 13 :: 10 :: rest) = some v.length := by
  induction v with
  | nil => simp [indexCRLF]
  | cons b bs ih =>
    simp only [List.cons_append, indexCRLF]
    rw [if_neg (by rintro ⟨hb, -⟩; exact hv b (List.mem_cons_self b bs) hb)]
    show Option.map (fun x => x + 1) (indexCRLF (bs ++ 13 :: 10 :: rest)) = some (b :: bs).length
    rw [ih (fun x hx => hv x (List.mem_cons_of_mem b hx))]
    simp

/-- C10: a header line with an empty field name (`:v\r\n`) is accepted, not
rejected: the trimmed value is merged under the empty-string key and the
call reports `(line length + 2, false)` with no error.  On a fresh
collection the value is stored under the key `""`. -/
theorem c10_empty_field_name (h : Headers) (v : ByteStr)
    (hv : ∀ b ∈ v, ¬ b = 13 ∧ ¬ b = 10) :
    h.Parse (58 :: v ++ [13, 10]) = .ok (h.Add [] (trimSpace v), 1 + v.length + 2, false) ∧
    Headers.Parse [] (58 :: v ++ [13, 10]) = .ok ([([], trimSpace v)], 1 + v.length + 2, false) := by
  have hidx : indexCRLF (58 :: v ++ [13, 10]) = some (1 + v.length) := by
    have : (58 :: v) ++ 13 :: 10 :: [] = 58 :: v ++ [13, 10] := by simp
    rw [← this, indexCRLF_of_clean (58 :: v)
      (by rintro b hb; rcases List.mem_cons.mp hb with hb | hb
          · subst hb; simp
          · exact (hv b hb).1)]
    show some (v.length + 1) = some (1 + v.length)
    rw [Nat.add_comm]
  have htake : (58 :: v ++ [13, 10]).take (1 + v.length) = 58 :: v := by
    have h1 : 1 + v.length = v.length + 1 := by omega
    rw [h1]
    rw [List.take_append_of_le_length (by simp)]
    exact List.take_of_length_le (by simp)
  have hsf : splitFirst 58 (58 :: v) = some ([], v) := by
    simp [splitFirst]
  have hmain : ∀ (h₀ : Headers), Headers.Parse h₀ (58 :: v ++ [13, 10]) =
      .ok (h₀.Add [] (trimSpace v), 1 + v.length + 2, false) := by
    intro h₀
    unfold Headers.Parse
    rw [hidx]
    dsimp only
    rw [if_neg (by rw [htake]; simp), htake, hsf]
    dsimp only
    rw [if_neg (by simp)]
    have htl : toLowerStr ([] : ByteStr) = [] := rfl
    rw [htl]
  refine ⟨hmain h, ?_⟩
  rw [hmain []]
  have : Headers.Add [] [] (trimSpace v) = [([], trimSpace v)] := by
    simp [Headers.Add, Headers.lookup?, Headers.setKey, toLowerStr]
  rw [this]

/-- Witness for C10 at `":v\r\n"`: stored under the empty key with value
`"v"`, consuming 4 bytes. -/
theorem c10_empty_field_name_witness :
    Headers.Parse [] (58 :: bytesOf "v" ++ [13, 10]) =
      .ok ([([], trimSpace (bytesOf "v"))], 1 + (bytesOf "v").length + 2, false) :=
  (c10_empty_field_name [] (bytesOf "v") (by decide)).2

lemma trailersLoop_state (a : List ByteStr) : ∀ (w : response.Writer)
    (l : List (ByteStr × ByteStr)), (trailersLoop a w l).1.state = w.state := by
  intro w l
  induction l generalizing w with
  | nil => rfl
  | cons p rest ih =>
    obtain ⟨k, val⟩ := p
    simp only [trailersLoop]
    by_cases hc : a.contains k
    · rw [if_pos hc]
      exact ih _
    · rw [if_neg hc]

lemma writeTrailers_state (w : response.Writer) (h : Headers) :
    (w.WriteTrailers h).1.state = w.state := by
  unfold response.Writer.WriteTrailers
  cases w.headers.lookup? (bytesOf "trailer") with
  | none => rfl
  | some val => exact trailersLoop_state _ w h

/-- Counterexample for C3: after `writeStatusLine; writeHeaders; writeBody`
the state is `StateBody`; one more `writeStatusLine` moves it back to
`StateStatusLine`, a strictly earlier state — the state is not monotone. -/
theorem c3_counterexample :
    stateRank (applyWOps NewWriter
      [.statusLine 200, .headersOp (GetDefaultHeaders 1), .bodyOp (bytesOf "x"),
       .statusLine 200]).state
    < stateRank (applyWOps NewWriter
      [.statusLine 200, .headersOp (GetDefaultHeaders 1), .bodyOp (bytesOf "x")]).state := by
  decide

/-- C3 (amended): every `ResponseWriter` operation other than
`writeStatusLine` never moves the state backward along
`Init → StatusLine → Headers → Body`; `writeStatusLine` itself always sets
the state to `StateStatusLine`, which is a backward move once body writing
has begun. -/
theorem c3_state_monotone (w : response.Writer) (op : WOp) :
    ((∀ c, ¬ op = .statusLine c) → stateRank w.state ≤ stateRank (applyWOp w op).state) ∧
    (∀ c, (applyWOp w (.statusLine c)).state = .StateStatusLine) := by
  constructor
  · intro hop
    cases op with
    | statusLine c => exact absurd rfl (hop c)
    | headersOp h =>
      simp only [applyWOp, response.Writer.WriteHeaders]
      by_cases hb : w.state = .StateBody
      · rw [if_pos hb]
      · rw [if_neg hb]
        cases hst : w.state with
        | StateInit => simp [stateRank]
        | StateStatusLine => simp [stateRank]
        | StateHeaders => simp [stateRank]
        | StateBody => exact absurd hst hb
    | bodyOp p =>
      simp only [applyWOp, response.Writer.WriteBody]
      by_cases hg : ¬ w.state = .StateHeaders ∧ ¬ w.state = .StateBody
      · rw [if_pos hg]
      · rw [if_neg hg]
        push_neg at hg
        cases hst : w.state with
        | StateInit =>
          exfalso
          have hb := hg (by rw [hst]; simp)
          rw [hst] at hb
          cases hb
        | StateStatusLine =>
          exfalso
          have hb := hg (by rw [hst]; simp)
          rw [hst] at hb
          cases hb
        | StateHeaders => simp [stateRank]
        | StateBody => simp [stateRank]
    | chunked p => exact le_refl _
    | chunkedDone => exact le_refl _
    | trailersOp h =>
      simp only [applyWOp]
      rw [writeTrailers_state w h]
  · intro c
    rfl

/-- Witness for C3 (amended), at the fresh writer: `writeHeaders` does not
move the state backward, and `writeStatusLine` sets it to
`StateStatusLine`. -/
theorem c3_state_monotone_witness :
    stateRank NewWriter.state ≤ stateRank (applyWOp NewWriter (.headersOp NewHeaders)).state ∧
    (applyWOp NewWriter (.statusLine 200)).state = .StateStatusLine :=
  ⟨(c3_state_monotone NewWriter (.headersOp NewHeaders)).1 (by intro c h; cases h),
   (c3_state_monotone NewWriter (.statusLine 200)).2 200⟩

lemma toLowerByte_idem (b : Nat) : toLowerByte (toLowerByte b) = toLowerByte b := by
  unfold toLowerByte
  by_cases h : 65 ≤ b ∧ b ≤ 90
  · rw [if_pos h, if_neg (by omega)]
  · rw [if_neg h, if_neg h]

lemma toLowerStr_idem (s : ByteStr) : toLowerStr (toLowerStr s) = toLowerStr s := by
  induction s with
  | nil => rfl
  | cons b t ih =>
    simp only [toLowerStr, List.map_cons] at ih ⊢
    rw [toLowerByte_idem]
    rw [ih]

lemma find?_map_overwrite (k v : ByteStr) : ∀ (t : Headers),
    t.any (fun p => p.1 = k) = true →
    ((t.map (fun p => if p.1 = k then (k, v) else p)).find?
      (fun p => p.1 = k)).map (·.2) = some v := by
  intro t
  induction t with
  | nil => intro hany; simp at hany
  | cons q rest ih =>
    intro hany
    simp only [List.map_cons]
    by_cases hq : q.1 = k
    · rw [if_pos hq]
      rw [List.find?_cons_of_pos _ (by simp)]
      rfl
    · rw [if_neg hq]
      rw [List.find?_cons_of_neg _ (by simpa using hq)]
      apply ih
      simp only [List.any_cons] at hany
      simpa [hq] using hany

lemma find?_append_absent (k v : ByteStr) : ∀ (t : Headers),
    t.any (fun p => p.1 = k) = false →
    ((t ++ [(k, v)]).find? (fun p => p.1 = k)).map (·.2) = some v := by
  intro t
  induction t with
  | nil => intro _; simp [List.find?]
  | cons q rest ih =>
    intro hany
    simp only [List.any_cons, Bool.or_eq_false_iff] at hany
    obtain ⟨hq, hrest⟩ := hany
    simp only [List.cons_append]
    rw [List.find?_cons_of_neg _ (by simpa using hq)]
    exact ih hrest

lemma lookup?_setKey_self (h : Headers) (k v : ByteStr) :
    (h.setKey k v).lookup? k = some v := by
  unfold Headers.setKey Headers.lookup?
  by_cases hany : h.any (fun p => p.1 = k) = true
  · rw [if_pos hany]
    exact find?_map_overwrite k v h hany
  · rw [if_neg hany]
    exact find?_append_absent k v h (by rwa [Bool.not_eq_true] at hany)

lemma setKey_mem (h : Headers) (k v : ByteStr) :
    ∀ p ∈ h.setKey k v, p.1 = k ∨ ∃ q ∈ h, p.1 = q.1 := by
  intro p hp
  unfold Headers.setKey at hp
  split at hp
  · rw [List.mem_map] at hp
    obtain ⟨q, hq, hpq⟩ := hp
    by_cases hqk : q.1 = k
    · rw [if_pos hqk] at hpq
      left
      rw [← hpq]
    · rw [if_neg hqk] at hpq
      right
      exact ⟨q, hq, by rw [← hpq]⟩
  · rw [List.mem_append] at hp
    rcases hp with hp | hp
    · right
      exact ⟨p, hp, rfl⟩
    · simp only [List.mem_singleton] at hp
      left
      rw [hp]

lemma Add_mem (h : Headers) (nm v : ByteStr) :
    ∀ p ∈ h.Add nm v, p.1 = toLowerStr nm ∨ ∃ q ∈ h, p.1 = q.1 := by
  intro p hp
  unfold Headers.Add at hp
  dsimp only at hp
  rcases hl : h.lookup? (toLowerStr nm) with - | val
  · rw [hl] at hp
    exact setKey_mem h (toLowerStr nm) v p hp
  · rw [hl] at hp
    exact setKey_mem h (toLowerStr nm) _ p hp

lemma Parse_shape (h : Headers) (data : ByteStr) (h' : Headers) (n : Nat) (b : Bool)
    (hp : h.Parse data = .ok (h', n, b)) :
    h' = h ∨ ∃ nm val, h' = h.Add nm val := by
  unfold Headers.Parse at hp
  cases hidx : indexCRLF data with
  | none =>
    rw [hidx] at hp
    simp only [Except.ok.injEq, Prod.mk.injEq] at hp
    left
    exact hp.1.symm
  | some idx =>
    rw [hidx] at hp
    dsimp only at hp
    split at hp
    · simp only [Except.ok.injEq, Prod.mk.injEq] at hp
      left
      exact hp.1.symm
    · split at hp
      · simp at hp
      · rename_i nm rest heq
        split at hp
        · simp at hp
        · simp only [Except.ok.injEq, Prod.mk.injEq] at hp
          right
          exact ⟨toLowerStr nm, trimSpace rest, hp.1.symm⟩

lemma keysLower_applyHOp (h : Headers) (hinv : ∀ p ∈ h, toLowerStr p.1 = p.1) (op : HOp) :
    ∀ p ∈ applyHOp h op, toLowerStr p.1 = p.1 := by
  have hAdd : ∀ (nm v : ByteStr), ∀ p ∈ h.Add nm v, toLowerStr p.1 = p.1 := by
    intro nm v p hp
    rcases Add_mem h nm v p hp with hk | ⟨q, hq, hpq⟩
    · rw [hk, toLowerStr_idem]
    · rw [hpq]
      exact hinv q hq
  cases op with
  | setOp nm v =>
    intro p hp
    rcases setKey_mem h (toLowerStr nm) v p hp with hk | ⟨q, hq, hpq⟩
    · rw [hk, toLowerStr_idem]
    · rw [hpq]
      exact hinv q hq
  | addOp nm v => exact hAdd nm v
  | deleteOp nm =>
    intro p hp
    exact hinv p (List.mem_of_mem_filter hp)
  | parseOp data =>
    intro p hp
    simp only [applyHOp] at hp
    cases hps : h.Parse data with
    | error e =>
      rw [hps] at hp
      exact hinv p hp
    | ok q =>
      obtain ⟨h', n, b⟩ := q
      rw [hps] at hp
      rcases Parse_shape h data h' n b hps with heq | ⟨nm, val, heq⟩
      · rw [heq] at hp
        exact hinv p hp
      · rw [heq] at hp
        exact hAdd nm val p hp

lemma keysLower_applyHOps : ∀ (ops : List HOp) (h : Headers),
    (∀ p ∈ h, toLowerStr p.1 = p.1) →
    ∀ p ∈ applyHOps h ops, toLowerStr p.1 = p.1 := by
  intro ops
  induction ops with
  | nil => intro h hinv; exact hinv
  | cons op rest ih =>
    intro h hinv
    exact ih (applyHOp h op) (keysLower_applyHOp h hinv op)

/-- Counterexample for C8: `add` does not trim the occurrence values before
merging — two adds of `" x"` and `"y"` under the same name yield `" x, y"`,
not the trimmed `"x, y"` the claim requires. -/
theorem c8_counterexample :
    (applyHOps NewHeaders
        [.addOp (bytesOf "a") (bytesOf " x"), .addOp (bytesOf "a") (bytesOf "y")]).Get
      (bytesOf "a") = bytesOf " x, y" ∧
    ¬ (applyHOps NewHeaders
        [.addOp (bytesOf "a") (bytesOf " x"), .addOp (bytesOf "a") (bytesOf "y")]).Get
      (bytesOf "a") =
      trimSpace (bytesOf " x") ++ bytesOf ", " ++ trimSpace (bytesOf "y") := by
  decide

/-- C8 (amended): after any sequence of `set`/`add`/`delete`/`parseOne`
operations, every stored field name is lower-case and lookups are
case-insensitive; duplicate occurrences merge into one value joined with
`", "` in arrival order — `parseOne` trims each occurrence before merging
(`c7_headers_parse`), while `add` concatenates the given value verbatim. -/
theorem c8_lowercase_invariant (ops : List HOp) :
    (∀ p ∈ applyHOps NewHeaders ops, toLowerStr p.1 = p.1) ∧
    (∀ n, (applyHOps NewHeaders ops).Get n = (applyHOps NewHeaders ops).Get (toLowerStr n)) ∧
    (∀ n v val, (applyHOps NewHeaders ops).lookup? (toLowerStr n) = some val →
      ((applyHOps NewHeaders ops).Add n v).Get n = val ++ bytesOf ", " ++ v) ∧
    (∀ n v, (applyHOps NewHeaders ops).lookup? (toLowerStr n) = none →
      ((applyHOps NewHeaders ops).Add n v).Get n = v) := by
  refine ⟨keysLower_applyHOps ops NewHeaders (by intro p hp; simp [NewHeaders] at hp), ?_, ?_, ?_⟩
  · intro n
    unfold Headers.Get
    rw [toLowerStr_idem]
  · intro n v val hl
    unfold Headers.Add
    dsimp only
    rw [hl]
    unfold Headers.Get
    rw [lookup?_setKey_self]
    rfl
  · intro n v hl
    unfold Headers.Add
    dsimp only
    rw [hl]
    unfold Headers.Get
    rw [lookup?_setKey_self]
    rfl

/-- Witness for C8 (amended) after a `set`: the stored name is lower-case,
lookup is case-insensitive, and a later `add` merges with `", "`. -/
theorem c8_lowercase_invariant_witness :
    (∀ p ∈ applyHOps NewHeaders [.setOp (bytesOf "Accept") (bytesOf "text/html")],
      toLowerStr p.1 = p.1) ∧
    ((applyHOps NewHeaders [.setOp (bytesOf "Accept") (bytesOf "text/html")]).Get (bytesOf "ACCEPT")
      = (applyHOps NewHeaders [.setOp (bytesOf "Accept") (bytesOf "text/html")]).Get
          (toLowerStr (bytesOf "ACCEPT"))) ∧
    ((applyHOps NewHeaders [.setOp (bytesOf "Accept") (bytesOf "text/html")]).Add
        (bytesOf "Accept") (bytesOf "application/json")).Get (bytesOf "Accept")
      = bytesOf "text/html" ++ bytesOf ", " ++ bytesOf "application/json" := by
  have h := c8_lowercase_invariant [.setOp (bytesOf "Accept") (bytesOf "text/html")]
  exact ⟨h.1, h.2.1 (bytesOf "ACCEPT"),
    h.2.2.1 (bytesOf "Accept") (bytesOf "application/json") (bytesOf "text/html") (by decide)⟩

lemma trailersLoop_ok (a : List ByteStr) : ∀ (w : response.Writer)
    (l : List (ByteStr × ByteStr)), (∀ p ∈ l, a.contains p.1 = true) →
    (trailersLoop a w l).2 = none ∧
    (trailersLoop a w l).1.trailers = l.foldl (fun t p => t.Set p.1 p.2) w.trailers := by
  intro w l
  induction l generalizing w with
  | nil => intro _; exact ⟨rfl, rfl⟩
  | cons p rest ih =>
    intro hall
    obtain ⟨k, v⟩ := p
    simp only [trailersLoop]
    rw [if_pos (hall (k, v) (List.mem_cons_self _ _))]
    have := ih { w with trailers := w.trailers.Set k v }
      (fun q hq => hall q (List.mem_cons_of_mem _ hq))
    refine ⟨this.1, ?_⟩
    rw [this.2]
    simp [List.foldl_cons]

lemma trailersLoop_err (a : List ByteStr) : ∀ (w : response.Writer)
    (l : List (ByteStr × ByteStr)), (∃ p ∈ l, ¬ a.contains p.1 = true) →
    ∃ k, ¬ a.contains k = true ∧ (trailersLoop a w l).2 = some (.unannouncedTrailer k) := by
  intro w l
  induction l generalizing w with
  | nil => rintro ⟨p, hp, -⟩; simp at hp
  | cons q rest ih =>
    rintro ⟨p, hp, hkp⟩
    obtain ⟨k, v⟩ := q
    simp only [trailersLoop]
    by_cases hc : a.contains k = true
    · rw [if_pos hc]
      apply ih
      rcases List.mem_cons.mp hp with heq | hmem
      · exfalso
        apply hkp
        rw [heq]
        exact hc
      · exact ⟨p, hmem, hkp⟩
    · rw [if_neg hc]
      exact ⟨k, hc, rfl⟩

/-- Counterexample for C9: with `trailer: X-Sum` announced, a trailer field
whose name is `"X-Sum"` — equal to the announced name under
whitespace-trimmed case-insensitive comparison — is nevertheless rejected
with `UnannouncedTrailer`, because the code compares the given name
literally against the lower-cased announced names. -/
theorem c9_counterexample :
    (((NewWriter.WriteHeaders (NewHeaders.Set (bytesOf "Trailer") (bytesOf "X-Sum"))).1.WriteTrailers
        [(bytesOf "X-Sum", bytesOf "1")]).2 = some (.unannouncedTrailer (bytesOf "X-Sum"))) ∧
    toLowerStr (trimSpace (bytesOf "X-Sum")) ∈
      (splitOnByte 44 (bytesOf "X-Sum")).map (fun q => toLowerStr (trimSpace q)) := by
  decide

/-- C9 (amended): `writeTrailers` fails with `TrailersNotInitialized` when
no `trailer` header is held; with one, the announced set is its value split
on commas with each part trimmed and lower-cased, and the call merges all
given fields into the trailer collection when every given name literally
occurs in that set, while any given field whose (exact, case-sensitive)
name is not in the set makes it fail with `UnannouncedTrailer`. -/
theorem c9_write_trailers (w : response.Writer) (h : Headers) :
    (w.headers.lookup? (bytesOf "trailer") = none →
      w.WriteTrailers h = (w, some .trailersNotInitialized)) ∧
    (∀ val, w.headers.lookup? (bytesOf "trailer") = some val →
      ((∀ p ∈ h, ((splitOnByte 44 val).map (fun q => toLowerStr (trimSpace q))).contains p.1
          = true) →
        (w.WriteTrailers h).2 = none ∧
        (w.WriteTrailers h).1.trailers = h.foldl (fun t p => t.Set p.1 p.2) w.trailers) ∧
      ((∃ p ∈ h, ¬ ((splitOnByte 44 val).map (fun q => toLowerStr (trimSpace q))).contains p.1
          = true) →
        ∃ k, ¬ ((splitOnByte 44 val).map (fun q => toLowerStr (trimSpace q))).contains k = true ∧
          (w.WriteTrailers h).2 = some (.unannouncedTrailer k))) := by
  constructor
  · intro hn
    unfold response.Writer.WriteTrailers
    rw [hn]
  · intro val hv
    constructor
    · intro hall
      unfold response.Writer.WriteTrailers
      rw [hv]
      exact trailersLoop_ok _ w h hall
    · intro hex
      unfold response.Writer.WriteTrailers
      rw [hv]
      exact trailersLoop_err _ w h hex

/-- Witness for C9 (amended): with `trailer: X-Sum` announced, the
lower-case field name `x-sum` is accepted and merged. -/
theorem c9_write_trailers_witness :
    (((NewWriter.WriteHeaders (NewHeaders.Set (bytesOf "Trailer") (bytesOf "X-Sum"))).1.WriteTrailers
        [(bytesOf "x-sum", bytesOf "1")]).2 = none) ∧
    (((NewWriter.WriteHeaders (NewHeaders.Set (bytesOf "Trailer") (bytesOf "X-Sum"))).1.WriteTrailers
        [(bytesOf "x-sum", bytesOf "1")]).1.trailers
      = ([(bytesOf "x-sum", bytesOf "1")] : Headers).foldl (fun t p => t.Set p.1 p.2)
          (NewWriter.WriteHeaders (NewHeaders.Set (bytesOf "Trailer") (bytesOf "X-Sum"))).1.trailers) :=
  ((c9_write_trailers
      (NewWriter.WriteHeaders (NewHeaders.Set (bytesOf "Trailer") (bytesOf "X-Sum"))).1
      [(bytesOf "x-sum", bytesOf "1")]).2 (bytesOf "X-Sum") (by decide)).1 (by decide)

lemma hexDigit_isHex (m : Nat) (hm : m < 16) : isHexDigit (hexDigit m) = true := by
  unfold hexDigit isHexDigit
  by_cases h : m < 10
  · rw [if_pos h]
    simp only [Bool.or_eq_true, Bool.and_eq_true, decide_eq_true_eq]
    omega
  · rw [if_neg h]
    simp only [Bool.or_eq_true, Bool.and_eq_true, decide_eq_true_eq]
    omega

lemma hexVal_hexDigit (m : Nat) (hm : m < 16) : hexVal (hexDigit m) = m := by
  unfold hexDigit hexVal
  by_cases h : m < 10
  · rw [if_pos h, if_pos (by omega)]
    omega
  · rw [if_neg h, if_neg (by omega), if_pos (by omega)]
    omega

lemma toHexAux_spec (fuel : Nat) : ∀ (n : Nat) (acc : ByteStr), n < fuel →
    (∀ b ∈ toHexAux fuel n acc, isHexDigit b = true ∨ b ∈ acc) ∧
    (∃ k, ∀ a, (toHexAux fuel n acc).foldl (fun x b => 16 * x + hexVal b) a
      = acc.foldl (fun x b => 16 * x + hexVal b) (a * 16 ^ k + n)) := by
  induction fuel with
  | zero => intro n acc h; omega
  | succ f ih =>
    intro n acc hn
    simp only [toHexAux]
    by_cases h0 : n = 0
    · rw [if_pos h0]
      refine ⟨fun b hb => Or.inr hb, 0, fun a => ?_⟩
      subst h0
      simp
    · rw [if_neg h0]
      have hdiv : n / 16 < f := by omega
      obtain ⟨hmem, k', hval⟩ := ih (n / 16) (hexDigit (n % 16) :: acc) hdiv
      refine ⟨?_, k' + 1, fun a => ?_⟩
      · intro b hb
        rcases hmem b hb with hhex | hacc
        · exact Or.inl hhex
        · rcases List.mem_cons.mp hacc with heq | hmem'
          · subst heq
            exact Or.inl (hexDigit_isHex (n % 16) (Nat.mod_lt n (by omega)))
          · exact Or.inr hmem'
      · rw [hval a]
        simp only [List.foldl_cons]
        rw [hexVal_hexDigit (n % 16) (Nat.mod_lt n (by omega))]
        have harith : 16 * (a * 16 ^ k' + n / 16) + n % 16 = a * 16 ^ (k' + 1) + n := by
          rw [Nat.pow_succ]
          have := Nat.div_add_mod n 16
          ring_nf
          omega
        rw [harith]

lemma toHex_hex (n : Nat) : ∀ b ∈ toHex n, isHexDigit b = true := by
  unfold toHex
  by_cases h0 : n = 0
  · rw [if_pos h0]
    intro b hb
    simp only [List.mem_singleton] at hb
    subst hb
    decide
  · rw [if_neg h0]
    intro b hb
    rcases (toHexAux_spec (n + 1) n [] (by omega)).1 b hb with hhex | habs
    · exact hhex
    · simp at habs

lemma toHex_val (n : Nat) :
    (toHex n).foldl (fun x b => 16 * x + hexVal b) 0 = n := by
  unfold toHex
  by_cases h0 : n = 0
  · rw [if_pos h0]
    subst h0
    decide
  · rw [if_neg h0]
    obtain ⟨k, hval⟩ := (toHexAux_spec (n + 1) n [] (by omega)).2
    rw [hval 0]
    simp

lemma toHex_ne_nil (n : Nat) : toHex n ≠ [] := by
  unfold toHex
  by_cases h0 : n = 0
  · rw [if_pos h0]
    simp
  · rw [if_neg h0]
    intro hnil
    have := toHex_val n
    unfold toHex at this
    rw [if_neg h0, hnil] at this
    simp only [List.foldl_nil] at this
    exact h0 this.symm

lemma takeWhile_append_stop (p : Nat → Bool) : ∀ (xs : ByteStr) (y : Nat) (ys : ByteStr),
    (∀ x ∈ xs, p x = true) → p y = false →
    (xs ++ y :: ys).takeWhile p = xs ∧ (xs ++ y :: ys).dropWhile p = y :: ys := by
  intro xs
  induction xs with
  | nil =>
    intro y ys _ hy
    simp [List.takeWhile_cons, List.dropWhile_cons, hy]
  | cons x t ih =>
    intro y ys hall hy
    have hx : p x = true := hall x (List.mem_cons_self _ _)
    obtain ⟨h1, h2⟩ := ih y ys (fun z hz => hall z (List.mem_cons_of_mem _ hz)) hy
    simp only [List.cons_append, List.takeWhile_cons, List.dropWhile_cons, hx]
    simp [h1, h2]

lemma readChunkSize_encode (n : Nat) (X : ByteStr) :
    readChunkSize (toHex n ++ 13 :: 10 :: X) = some (n, X) := by
  unfold readChunkSize
  obtain ⟨ht, hd⟩ := takeWhile_append_stop isHexDigit (toHex n) 13 (10 :: X)
    (toHex_hex n) (by decide)
  rw [ht, hd]
  obtain ⟨b, bs, htn⟩ : ∃ b bs, toHex n = b :: bs := by
    cases h : toHex n with
    | nil => exact absurd h (toHex_ne_nil n)
    | cons b bs => exact ⟨b, bs, rfl⟩
  rw [htn]
  dsimp only
  rw [← htn, toHex_val n]

lemma chunkBody_fold : ∀ (Ps : List ByteStr) (w : response.Writer),
    (Ps.foldl (fun w p => (w.WriteChunkedBody p).1) w).body
      = w.body ++ (Ps.map encodeChunk).flatten := by
  intro Ps
  induction Ps with
  | nil => intro w; simp
  | cons P rest ih =>
    intro w
    simp only [List.foldl_cons, List.map_cons, List.flatten_cons]
    rw [ih]
    simp only [response.Writer.WriteChunkedBody, encodeChunk]
    simp [List.append_assoc]

lemma chunkWriter_body (Ps : List ByteStr) :
    (chunkWriter Ps).body = (Ps.map encodeChunk).flatten ++ [48, 13, 10] := by
  unfold chunkWriter response.Writer.WriteChunkedBodyDone
  dsimp only
  rw [chunkBody_fold]
  simp [NewWriter]

lemma decodeChunkedAux_encode : ∀ (Ps : List ByteStr) (fuel : Nat),
    (∀ P ∈ Ps, P ≠ []) →
    ((Ps.map encodeChunk).flatten ++ [48, 13, 10]).length < fuel →
    decodeChunkedAux fuel ((Ps.map encodeChunk).flatten ++ [48, 13, 10]) = some Ps.flatten := by
  intro Ps
  induction Ps with
  | nil =>
    intro fuel _ hlen
    cases fuel with
    | zero => simp at hlen
    | succ f =>
      simp only [List.map_nil, List.flatten_nil, List.nil_append]
      simp only [decodeChunkedAux]
      rw [show readChunkSize [48, 13, 10] = some (0, []) from by decide]
  | cons P Ps ih =>
    intro fuel hne hlen
    cases fuel with
    | zero => simp at hlen
    | succ f =>
      have hPne : P ≠ [] := hne P (List.mem_cons_self _ _)
      have hshape : ((P :: Ps).map encodeChunk).flatten ++ [48, 13, 10]
          = toHex P.length ++ 13 :: 10 ::
            (P ++ 13 :: 10 :: ((Ps.map encodeChunk).flatten ++ [48, 13, 10])) := by
        simp only [List.map_cons, List.flatten_cons, encodeChunk]
        simp [List.append_assoc]
      rw [hshape]
      rw [hshape] at hlen
      simp only [decodeChunkedAux]
      rw [readChunkSize_encode P.length _]
      cases hlp : P.length with
      | zero => exact absurd (List.length_eq_zero.mp hlp) hPne
      | succ sz =>
        dsimp only
        have htk : (P ++ 13 :: 10 :: ((Ps.map encodeChunk).flatten ++ [48, 13, 10])).take (sz + 1)
            = P := by
          rw [← hlp]
          exact List.take_left P _
        have hdr : (P ++ 13 :: 10 :: ((Ps.map encodeChunk).flatten ++ [48, 13, 10])).drop (sz + 1)
            = 13 :: 10 :: ((Ps.map encodeChunk).flatten ++ [48, 13, 10]) := by
          rw [← hlp]
          exact List.drop_left P _
        have hlen' : ((Ps.map encodeChunk).flatten ++ [48, 13, 10]).length < f := by
          simp only [List.length_append, List.length_cons] at hlen
          have h1 : 1 ≤ (toHex P.length).length := by
            cases h : toHex P.length with
            | nil => exact absurd h (toHex_ne_nil _)
            | cons a l => simp
          simp only [List.length_append, List.length_cons]
          omega
        rw [htk, hdr]
        rw [if_pos (by omega)]
        have hc2 : List.take 2 (13 :: 10 :: ((Ps.map encodeChunk).flatten ++ [48, 13, 10]))
            = [13, 10] := rfl
        rw [if_pos hc2]
        have hdd : (13 :: 10 :: ((Ps.map encodeChunk).flatten ++ [48, 13, 10])).drop 2
            = (Ps.map encodeChunk).flatten ++ [48, 13, 10] := rfl
        rw [hdd]
        rw [ih f (fun Q hQ => hne Q (List.mem_cons_of_mem _ hQ)) hlen']
        simp [List.flatten_cons]

/-- Counterexample for C4: with an empty payload in the sequence, the
encoded stream contains a zero-length chunk in the middle, which any
standards-compliant decoder treats as the terminator — the decode stops
there and does not reproduce the concatenation of the payloads. -/
theorem c4_counterexample :
    ¬ decodeChunked (chunkWriter [[], [65]]).body = some ([[], [65]] : List ByteStr).flatten := by
  decide

/-- C4 (amended): for every sequence of non-empty payloads, the body
accumulator after `writeChunkedBody` on each and `writeChunkedBodyDone`
holds exactly the `<hex-length>\r\n<payload>\r\n` chunks followed by the
zero-length marker `0\r\n`, and a standards-compliant chunk decoder applied
to it reproduces the concatenation of the payloads byte for byte. -/
theorem c4_chunked_roundtrip (Ps : List ByteStr) (hne : ∀ P ∈ Ps, P ≠ []) :
    (chunkWriter Ps).body = (Ps.map encodeChunk).flatten ++ [48, 13, 10] ∧
    decodeChunked (chunkWriter Ps).body = some Ps.flatten := by
  refine ⟨chunkWriter_body Ps, ?_⟩
  rw [chunkWriter_body Ps]
  unfold decodeChunked
  exact decodeChunkedAux_encode Ps _ hne (by omega)

/-- Witness for C4 (amended) on two non-empty payloads. -/
theorem c4_chunked_roundtrip_witness :
    (chunkWriter [bytesOf "hello", bytesOf ", world"]).body
      = (([bytesOf "hello", bytesOf ", world"] : List ByteStr).map encodeChunk).flatten
        ++ [48, 13, 10] ∧
    decodeChunked (chunkWriter [bytesOf "hello", bytesOf ", world"]).body
      = some ([bytesOf "hello", bytesOf ", world"] : List ByteStr).flatten :=
  c4_chunked_roundtrip [bytesOf "hello", bytesOf ", world"] (by decide)
